import Mathlib

/-!
Verification of the text-sanitization core of `import_discussions.py`:
email redaction, signature removal, content sanitization, title
derivation and row filtering.  The Python string functions are embedded
as executable functions on `List Char` (ASCII character classes model
Python's `re` classes; `str` values are modelled by `String.data`).
-/

namespace QnA

/-- Python whitespace, the set matched by `\s` and stripped by `str.strip()`
(ASCII fragment): space, tab, newline, carriage return, vertical tab, form feed. -/
def isPySpace (c : Char) : Bool :=
  c == ' ' || c == '\t' || c == '\n' || c == '\r' || c == '\x0b' || c == '\x0c'

/-- Python `str.lstrip()`. -/
def pyLstripL (cs : List Char) : List Char := cs.dropWhile isPySpace

/-- Python `str.rstrip()`. -/
def pyRstripL (cs : List Char) : List Char := (cs.reverse.dropWhile isPySpace).reverse

/-- Python `str.strip()`. -/
def pyStripL (cs : List Char) : List Char := pyRstripL (pyLstripL cs)

/-- Python `str.split('\n')`. -/
def splitNL : List Char → List (List Char)
  | [] => [[]]
  | c :: rest =>
    if c == '\n' then [] :: splitNL rest
    else
      match splitNL rest with
      | l :: ls => (c :: l) :: ls
      | [] => [[c]]

/-- Python `'\n'.join(...)`. -/
def joinNL : List (List Char) → List Char
  | [] => []
  | [l] => l
  | l :: ls => l ++ '\n' :: joinNL ls

/-! ## Character classes of the email regex
`\b[A-Za-z0-9._%+-]+@[A-Za-z0-9.-]+\.[A-Z|a-z]{2,}\b` (line 45 of the source).
Note the literal `|` inside the final character class. -/

/-- Python regex word characters (`\w`, ASCII fragment), used by `\b`. -/
def isWordCh (c : Char) : Bool := c.isAlpha || c.isDigit || c == '_'

/-- The local-part class `[A-Za-z0-9._%+-]`. -/
def isLocalCh (c : Char) : Bool :=
  c.isAlpha || c.isDigit || c == '.' || c == '_' || c == '%' || c == '+' || c == '-'

/-- The domain class `[A-Za-z0-9.-]`. -/
def isDomainCh (c : Char) : Bool := c.isAlpha || c.isDigit || c == '.' || c == '-'

/-- The tld class of the source's regex, `[A-Z|a-z]`: letters and the literal `|`. -/
def isTldCh (c : Char) : Bool := c.isAlpha || c == '|'

/-- Modelled from the spec: "tld: two or more alphabetic characters" — the tld
class the spec describes, letters only (no `|`). -/
def isTldSpecCh (c : Char) : Bool := c.isAlpha

/-- Word-bit of an optional character; positions outside the string count as
non-word for `\b`. -/
def wordAt : Option Char → Bool
  | none => false
  | some c => isWordCh c

/-- A `\b` word boundary between a previous word-bit and the next character. -/
def bdry (w : Bool) (c : Option Char) : Bool := w != wordAt c

/-- Last character's word-bit of a list (false when empty). -/
def lastBit (l : List Char) : Bool := wordAt l.getLast?

/-! ## The backtracking email matcher
A faithful model of the regex engine's search at one position: the local part
and the two greedy classes after `@` with the engine's longest-first
backtracking over the dot split and the tld length. -/

/-- Greedy choice of the tld length: the largest `j` with `2 ≤ j ≤` the given
bound such that a `\b` boundary holds after `j` characters of `cs`.
Callers start `j` at the length of the maximal tld-class run. -/
def pickTld (cs : List Char) : Nat → Option Nat
  | 0 => none
  | j + 1 =>
    if j + 1 < 2 then none
    else
      match cs[j]? with
      | some c => if bdry (isWordCh c) cs[j + 1]? then some (j + 1) else pickTld cs j
      | none => pickTld cs j

/-- Backtracking over the domain length (longest first).  The argument is the
candidate domain length: `cs.take k` is the domain, `cs[k]` must be the
literal dot, and the tld is matched greedily from `cs.drop (k+1)` with tld
class `tp`.  Returns the total length `k + 1 + tld` consumed after the `@`.
Callers start `k` at the length of the maximal domain-class run. -/
def tryDom (tp : Char → Bool) (cs : List Char) : Nat → Option Nat
  | 0 => none
  | k + 1 =>
    (if cs[k + 1]? = some '.' then
      match pickTld (cs.drop (k + 2)) ((cs.drop (k + 2)).takeWhile tp).length with
      | some j => some (k + 1 + 1 + j)
      | none => tryDom tp cs k
    else tryDom tp cs k)

/-- Length of the maximal local-part run (`[A-Za-z0-9._%+-]+` greedy). -/
def localLen (cs : List Char) : Nat := (cs.takeWhile isLocalCh).length

/-- Length of the maximal domain run (`[A-Za-z0-9.-]+` greedy). -/
def domLen (cs : List Char) : Nat := (cs.takeWhile isDomainCh).length

/-- The regex engine's attempt to match the email pattern at the start of
`cs`, where `w` is the word-bit of the preceding character.  Returns the
number of characters matched.  The local part needs no backtracking: it is
the maximal run of local-class characters, which `@` (not a local character)
must follow. -/
def matchEmail (tp : Char → Bool) (w : Bool) (cs : List Char) : Option Nat :=
  match cs with
  | [] => none
  | c :: _ =>
    if bdry w (some c) then
      if localLen cs = 0 then none
      else if cs[localLen cs]? = some '@' then
        match tryDom tp (cs.drop (localLen cs + 1)) (domLen (cs.drop (localLen cs + 1))) with
        | some m => some (localLen cs + 1 + m)
        | none => none
      else none
    else none

/-- One piece of the redaction scan: a kept character or a matched email. -/
inductive RPiece where
  | keep : Char → RPiece
  | email : List Char → RPiece
deriving DecidableEq, Repr

/-- The original text of a piece. -/
def origP : RPiece → List Char
  | .keep c => [c]
  | .email m => m

/-- The replacement marker `[redacted-email]`. -/
def markerL : List Char := "[redacted-email]".data

/-- The rendered (post-substitution) text of a piece. -/
def renderP : RPiece → List Char
  | .keep c => [c]
  | .email _ => markerL

/-- The left-to-right scan of `re.sub`: at each position try the pattern; on a
match, emit the matched slice as a piece and resume after it, otherwise keep
one character and advance.  `w` is the word-bit of the previous character.
The fuel only needs to be at least `cs.length`. -/
def emailScan (tp : Char → Bool) : Nat → Bool → List Char → List RPiece
  | 0, _, _ => []
  | _, _, [] => []
  | f + 1, w, c :: rest =>
    match matchEmail tp w (c :: rest) with
    | some n =>
      RPiece.email ((c :: rest).take n) ::
        emailScan tp f (lastBit ((c :: rest).take n)) ((c :: rest).drop n)
    | none => RPiece.keep c :: emailScan tp f (isWordCh c) rest

/-- Redaction on character lists: render the scan's pieces. -/
def redactL (tp : Char → Bool) (cs : List Char) : List Char :=
  ((emailScan tp cs.length false cs).map renderP).flatten

/-- Source `redact_emails` (lines 34–46): replace every regex match by the
marker, via `re.sub` modelled as `emailScan` with the source's tld class
`[A-Z|a-z]`. -/
def redact_emails (s : String) : String := String.mk (redactL isTldCh s.data)

/-- Modelled from the spec: redaction as claim C1 words it, identical except
that the tld class is "two or more alphabetic characters" (no `|`). -/
def redactEmailsClaimed (s : String) : String := String.mk (redactL isTldSpecCh s.data)

/-! ## Line-based signature removal (lines 67–104)
Each regex of `signature_patterns` is matched with `re.match` and
`re.IGNORECASE`: skip leading whitespace (`^\s*`), the lower-case literal,
then one whitespace-or-comma (`[\s,]`), or for the mail-header patterns
optional whitespace and a colon (`\s*:`). -/

/-- Case-insensitive literal matching: `pat` is the lower-case literal; on
success returns the rest of the input. -/
def litCI : List Char → List Char → Option (List Char)
  | [], cs => some cs
  | _ :: _, [] => none
  | p :: ps, c :: cs => if c.toLower == p then litCI ps cs else none

/-- The class `[\s,]`. -/
def isSepCh (c : Char) : Bool := isPySpace c || c == ','

/-- The keyword signature patterns' literals (source lines 72–77). -/
def kwSig : List (List Char) :=
  ["thanks", "thank you", "regards", "best", "cheers", "sincerely"].map String.data

/-- The mail-header signature patterns' literals (source lines 78–83). -/
def hdrSig : List (List Char) :=
  ["from", "sent", "to", "cc", "bcc", "subject"].map String.data

/-- Does `^\s*kw[\s,]` match the line (case-insensitively)? -/
def matchSigKw (kw : List Char) (line : List Char) : Bool :=
  match litCI kw (line.dropWhile isPySpace) with
  | some (c :: _) => isSepCh c
  | _ => false

/-- Does `^\s*w\s*:` match the line (case-insensitively)? -/
def matchSigHdr (w : List Char) (line : List Char) : Bool :=
  match litCI w (line.dropWhile isPySpace) with
  | some rest => (rest.dropWhile isPySpace).head? == some ':'
  | none => false

/-- Does some pattern of `signature_patterns` match the line? -/
def isSigLine (line : List Char) : Bool :=
  kwSig.any (fun kw => matchSigKw kw line) || hdrSig.any (fun w => matchSigHdr w line)

/-- The source's loop over lines with the `found_signature` flag (lines 86–102):
once a signature line is seen, every later line is skipped. -/
def keepLoop : List (List Char) → Bool → List (List Char)
  | [], _ => []
  | l :: ls, found =>
    if found then keepLoop ls true
    else if isSigLine l then keepLoop ls true
    else l :: keepLoop ls false

/-- Lines 67–104: split on newlines, drop from the first signature line on,
rejoin and strip. -/
def lineStageL (cs : List Char) : List Char :=
  pyStripL (joinNL (keepLoop (splitNL cs) false))

/-! ## Inline trailing trims (lines 106–114)
`re.sub(r'[.!?]?\s+(kw…)[\s,]+.*$', '', result, flags=re.IGNORECASE)` and the
same with a leading comma.  `re.sub` removes from the leftmost position where
the pattern matches; `.` does not cross a newline and `$` accepts the end of
the string or the position before a final newline, so the matched region runs
to the end of the string, except that a final newline survives when the
greedy `[\s,]+`/`.*` cannot reach the absolute end. -/

/-- The class `[.!?]`. -/
def isPunctCh (c : Char) : Bool := c == '.' || c == '!' || c == '?'

/-- The inline patterns' keyword alternation (source lines 109 and 113). -/
def kwInline : List (List Char) :=
  ["thanks", "thank you", "regards", "best regards", "best", "cheers", "sincerely"].map
    String.data

/-- Can `.*$` consume this tail up to the absolute end (no newline at all)? -/
def tailFull (l : List Char) : Bool := l.all (fun c => c != '\n')

/-- Can `.*$` consume this tail with `$` just before a final newline: exactly
one newline, at the very end? -/
def tailKeepNL : List Char → Bool
  | [] => false
  | c :: rest => if rest.isEmpty then c == '\n' else c != '\n' && tailKeepNL rest

/-- The `[\s,]+.*$` part: a nonempty run of `[\s,]` followed by an admissible
tail; `strict` demands `$` at the absolute end. -/
def sepRun (strict : Bool) : List Char → Bool
  | [] => false
  | c :: rest =>
    isSepCh c &&
      ((if strict then tailFull rest else tailFull rest || tailKeepNL rest) ||
        sepRun strict rest)

/-- The `(kw…)[\s,]+.*$` part starting at the keyword. -/
def kwTail (strict : Bool) (cs : List Char) : Bool :=
  kwInline.any fun kw =>
    match litCI kw cs with
    | some rest => sepRun strict rest
    | none => false

/-- The `\s+(kw…)[\s,]+.*$` part: a nonempty run of whitespace then the
keyword part. -/
def wsKwTail (strict : Bool) : List Char → Bool
  | [] => false
  | c :: rest => isPySpace c && (kwTail strict rest || wsKwTail strict rest)

/-- Does the first inline pattern `[.!?]?\s+(kw…)[\s,]+.*$` match here? -/
def t1At (strict : Bool) (cs : List Char) : Bool :=
  (match cs with
   | c :: rest => isPunctCh c && wsKwTail strict rest
   | [] => false) ||
    wsKwTail strict cs

/-- Does the second inline pattern `,\s+(kw…)[\s,]+.*$` match here? -/
def t2At (strict : Bool) (cs : List Char) : Bool :=
  match cs with
  | c :: rest => c == ',' && wsKwTail strict rest
  | [] => false

/-- Leftmost position whose suffix satisfies `p`. -/
def findAt (p : List Char → Bool) : List Char → Option Nat
  | [] => none
  | c :: rest => if p (c :: rest) then some 0 else (findAt p rest).map (· + 1)

/-- `re.sub` of an end-anchored pattern: cut at the leftmost match; when the
greedy engine can reach the absolute end the whole suffix goes, otherwise the
final newline survives. -/
def trimAt (at1 : Bool → List Char → Bool) (cs : List Char) : List Char :=
  match findAt (at1 false) cs with
  | none => cs
  | some p => if at1 true (cs.drop p) then cs.take p else cs.take p ++ ['\n']

/-- Line 110: the first inline trim. -/
def trim1L (cs : List Char) : List Char := trimAt t1At cs

/-- Line 114: the second inline trim. -/
def trim2L (cs : List Char) : List Char := trimAt t2At cs

/-! ## Assembling `remove_signature_lines` and `sanitize_content` -/

/-- Does the list end in `.`, `!` or `?` (`result[-1] in '.!?'`)? -/
def endPunct (cs : List Char) : Bool :=
  match cs.getLast? with
  | some c => isPunctCh c
  | none => false

/-- Lines 117–119: append a period when nonempty and not already ended by
sentence punctuation. -/
def appendDot (cs : List Char) : List Char :=
  if cs.isEmpty then cs else if endPunct cs then cs else cs ++ ['.']

/-- The value of `result` after line 117 (`result.rstrip()`), just before the
period may be appended. -/
def preFinalL (cs : List Char) : List Char :=
  pyRstripL (trim2L (trim1L (lineStageL cs)))

/-- Source `remove_signature_lines` (lines 49–121) on character lists. -/
def removeSigL (cs : List Char) : List Char :=
  pyStripL (appendDot (preFinalL cs))

/-- Source `remove_signature_lines`. -/
def remove_signature_lines (s : String) : String := String.mk (removeSigL s.data)

/-- Source `sanitize_content` (lines 124–140): redact emails, remove
signatures, strip. -/
def sanitize_content (s : String) : String :=
  String.mk (pyStripL (removeSigL (redactL isTldCh s.data)))

/-! ## Title derivation (lines 143–165) -/

/-- Python `title_content.rfind(' ')`: the index of the last space, as an
option (`rfind` returns `-1`, which the comparison below treats like `none`
since the threshold is nonnegative). -/
def lastSpaceIdx : List Char → Option Nat
  | [] => none
  | c :: rest =>
    match lastSpaceIdx rest with
    | some i => some (i + 1)
    | none => if c == ' ' then some 0 else none

/-- Source `generate_title` (lines 143–165).  The float comparison
`last_space > max_length * 0.7` is modelled exactly over the rationals as
`10 * last_space > 7 * max_length`; for the default `max_length = 60` the
float product is exactly `42.0`, so the two agree. -/
def generate_title (content : String) (max_length : Nat := 60) : String :=
  let tc := content.data.take max_length
  if max_length < content.data.length then
    let tc2 :=
      match lastSpaceIdx tc with
      | some i => if 7 * max_length < 10 * i then tc.take i else tc
      | none => tc
    String.mk ("Q&A: ".data ++ tc2 ++ "...".data)
  else String.mk ("Q&A: ".data ++ tc)

/-! ## Row filtering (lines 200–216) -/

/-- A CSV row: named fields to string values (`csv.DictReader` yields unique
keys; an association list, first match wins). -/
def Record := List (String × String)

/-- Python `row.get(key, '')`. -/
def rowGet (r : Record) (k : String) : String :=
  match r.find? (fun kv => kv.1 == k) with
  | some kv => kv.2
  | none => ""

/-- Python `str.upper()` (ASCII model). -/
def pyUpper (s : String) : String := String.mk (s.data.map Char.toUpper)

/-- The filter predicate of lines 212–213. -/
def isQuestionRow (r : Record) : Bool :=
  pyUpper (rowGet r "Source") == "ATTENDEE" && pyUpper (rowGet r "Type") == "QUESTION"

/-- The source's accumulator loop (lines 210–216): `filtered.append(row)`. -/
def filterLoop : List Record → List Record → List Record
  | [], acc => acc
  | r :: rest, acc =>
    if isQuestionRow r then filterLoop rest (acc ++ [r]) else filterLoop rest acc

/-- Source `filter_questions` (lines 200–216). -/
def filter_questions (rows : List Record) : List Record := filterLoop rows []

/-! ## Declarative predicates taken from the claims' wording
These restate, independently of the matchers above, what a match is; the
claim theorems relate the code embedding to them. -/

/-- Case-insensitive equality of strings, as the spec's "case-insensitively
equals": equal once both sides are lower-cased. -/
def ciEqStr (a b : String) : Prop := a.data.map Char.toLower = b.data.map Char.toLower

/-- Claim C4's notion of "the last space within the truncated slice": a space
with no space after it. -/
def IsLastSpace (cs : List Char) (i : Nat) : Prop :=
  cs[i]? = some ' ' ∧ ∀ j, i < j → cs[j]? ≠ some ' '

/-- Claim C4 (amended): for content longer than `ml`, the title backs off to
the last space of the truncated slice exactly when that space's position is
strictly greater than `0.7 * ml` (i.e. `10 i > 7 ml`), else keeps the hard
cut; either way `"Q&A: "` is put in front and `"..."` behind. -/
def TitleTruncSpec (content : String) (ml : Nat) : Prop :=
  (∃ i, IsLastSpace (content.data.take ml) i ∧ 7 * ml < 10 * i ∧
      (generate_title content ml).data =
        "Q&A: ".data ++ (content.data.take ml).take i ++ "...".data) ∨
  ((∀ i, IsLastSpace (content.data.take ml) i → 10 * i ≤ 7 * ml) ∧
      (generate_title content ml).data = "Q&A: ".data ++ content.data.take ml ++ "...".data)

/-- An email-shaped slice in the sense of claim C1: nonempty local part, `@`,
nonempty domain, a dot, and a tld of length at least two drawn from `tp`. -/
def EmailShape (tp : Char → Bool) (m : List Char) : Prop :=
  ∃ lp dom tld, m = lp ++ '@' :: (dom ++ '.' :: tld) ∧
    lp ≠ [] ∧ (∀ c ∈ lp, isLocalCh c = true) ∧
    dom ≠ [] ∧ (∀ c ∈ dom, isDomainCh c = true) ∧
    2 ≤ tld.length ∧ (∀ c ∈ tld, tp c = true)

/-- Correctness of a piece list produced by the redaction scan, read against
the original text: kept characters admit no match (every match is replaced),
and each replaced slice is an email shape bounded by word edges on both
sides. `w` is the word-bit of the character before the pieces. -/
def ScanGood (tp : Char → Bool) : Bool → List RPiece → Prop
  | _, [] => True
  | w, .keep c :: ps =>
    matchEmail tp w (c :: (ps.map origP).flatten) = none ∧ ScanGood tp (isWordCh c) ps
  | w, .email m :: ps =>
    EmailShape tp m ∧ bdry w m.head? = true ∧
      bdry (lastBit m) ((ps.map origP).flatten).head? = true ∧ ScanGood tp (lastBit m) ps

/-- A line that starts a signature block in the sense of claim C2 (amended):
after optional leading whitespace, a case-insensitive keyword followed by one
whitespace-or-comma character, or a case-insensitive mail-header word
followed by optional whitespace and a colon. -/
def SigLineSpec (l : List Char) : Prop :=
  (∃ ws kw c rest, l = ws ++ kw ++ c :: rest ∧ (∀ x ∈ ws, isPySpace x = true) ∧
      kw.map Char.toLower ∈ kwSig ∧ isSepCh c = true) ∨
  (∃ ws w ws2 rest, l = ws ++ w ++ ws2 ++ ':' :: rest ∧ (∀ x ∈ ws, isPySpace x = true) ∧
      w.map Char.toLower ∈ hdrSig ∧ (∀ x ∈ ws2, isPySpace x = true))

/-- An occurrence of the first inline pattern in the sense of claim C3
(amended), at the start of `l` and reaching the end of the string: optional
sentence punctuation, whitespace, a keyword, at least one
whitespace-or-comma, then a newline-free tail. -/
def InlineSpec (l : List Char) : Prop :=
  ∃ pc ws kw sep tail, l = pc ++ ws ++ kw ++ sep ++ tail ∧
    (pc = [] ∨ ∃ c, pc = [c] ∧ isPunctCh c = true) ∧
    ws ≠ [] ∧ (∀ x ∈ ws, isPySpace x = true) ∧
    kw.map Char.toLower ∈ kwInline ∧
    sep ≠ [] ∧ (∀ x ∈ sep, isSepCh x = true) ∧
    (∀ x ∈ tail, x ≠ '\n')

/-- An occurrence of the second inline pattern in the sense of claim C3
(amended): a comma, whitespace, a keyword, at least one whitespace-or-comma,
then a newline-free tail. -/
def CommaSpec (l : List Char) : Prop :=
  ∃ ws kw sep tail, l = ',' :: (ws ++ kw ++ sep ++ tail) ∧
    ws ≠ [] ∧ (∀ x ∈ ws, isPySpace x = true) ∧
    kw.map Char.toLower ∈ kwInline ∧
    sep ≠ [] ∧ (∀ x ∈ sep, isSepCh x = true) ∧
    (∀ x ∈ tail, x ≠ '\n')

/-- Claim C3 (amended), packaged: each trim cuts at the leftmost occurrence
of its pattern (given neither input ends in a newline), and is the identity
when the pattern occurs nowhere. -/
def InlineTrimClaims (s u : List Char) : Prop :=
  ((∀ p, ¬ InlineSpec (s.drop p)) → trim1L s = s) ∧
  (∀ p, InlineSpec (s.drop p) → (∀ q, q < p → ¬ InlineSpec (s.drop q)) →
    trim1L s = s.take p) ∧
  ((∀ p, ¬ CommaSpec (u.drop p)) → trim2L u = u) ∧
  (∀ p, CommaSpec (u.drop p) → (∀ q, q < p → ¬ CommaSpec (u.drop q)) →
    trim2L u = u.take p)

/-- Booleans used by claim C8's hypotheses: does the text contain any email
match, any signature line, or any inline-trim occurrence? -/
def hasEmailL (cs : List Char) : Bool :=
  (emailScan isTldCh cs.length false cs).any fun p =>
    match p with
    | .email _ => true
    | .keep _ => false

/-- Does some line of the text match a line-start signature pattern? -/
def hasLineCue (cs : List Char) : Bool := (splitNL cs).any isSigLine

/-- Does either inline pattern occur anywhere in the text? -/
def hasInlineCue (cs : List Char) : Bool :=
  (findAt (t1At false) cs).isSome || (findAt (t2At false) cs).isSome

/-! ## Declarative email matches and the no-match predicate (for claim C9) -/

/-- A declarative match of the email pattern at the start of `l`: some prefix
has the email shape and is bounded by word edges on both sides; `w` is the
word-bit of the character preceding `l`. -/
def DeclEm (tp : Char → Bool) (w : Bool) (l : List Char) : Prop :=
  ∃ m rest, l = m ++ rest ∧ EmailShape tp m ∧ bdry w m.head? = true ∧
    bdry (lastBit m) rest.head? = true

/-- No position of `l` admits an email match; `w` is the word-bit of the
character preceding `l`. -/
def NoEm (tp : Char → Bool) : Bool → List Char → Prop
  | _, [] => True
  | w, c :: rest => matchEmail tp w (c :: rest) = none ∧ NoEm tp (isWordCh c) rest

/-- The kept characters before the first matched piece of a scan. -/
def keptPre : List RPiece → List Char
  | [] => []
  | .keep c :: ps => c :: keptPre ps
  | .email _ :: _ => []

/-- The pieces of a scan from its first matched piece on. -/
def afterPre : List RPiece → List RPiece
  | [] => []
  | .keep _ :: ps => afterPre ps
  | .email m :: ps => .email m :: ps

/-- The word-bit of the last character of `l`, or `w` when `l` is empty. -/
def lastBitD (w : Bool) (l : List Char) : Bool :=
  match l.getLast? with
  | some c => isWordCh c
  | none => w

/-- The marker text between its brackets. -/
def midM : List Char := "redacted-email".data

/-! ## Lemmas: `rfind` characterization and the title claims -/

theorem lastSpaceIdx_none {cs : List Char} (h : lastSpaceIdx cs = none) :
    ∀ j : Nat, cs[j]? ≠ some ' ' := by
  induction cs with
  | nil => simp
  | cons d ds ih =>
    rw [lastSpaceIdx] at h
    cases hr2 : lastSpaceIdx ds with
    | some k => rw [hr2] at h; simp at h
    | none =>
      rw [hr2] at h
      by_cases hd : d = ' '
      · simp [hd] at h
      · intro j
        cases j with
        | zero => simp [hd]
        | succ j' => simpa using ih hr2 j'

theorem lastSpaceIdx_some {cs : List Char} {i : Nat} (h : lastSpaceIdx cs = some i) :
    cs[i]? = some ' ' ∧ ∀ j, i < j → cs[j]? ≠ some ' ' := by
  induction cs generalizing i with
  | nil => simp [lastSpaceIdx] at h
  | cons c rest ih =>
    rw [lastSpaceIdx] at h
    cases hr : lastSpaceIdx rest with
    | some i0 =>
      rw [hr] at h
      cases h
      obtain ⟨h1, h2⟩ := ih hr
      refine ⟨by simpa using h1, ?_⟩
      intro j hj
      cases j with
      | zero => omega
      | succ j' => simpa using h2 j' (by omega)
    | none =>
      rw [hr] at h
      by_cases hc : c = ' '
      · subst hc
        simp at h
        subst h
        refine ⟨by simp, ?_⟩
        intro j hj
        cases j with
        | zero => omega
        | succ j' =>
          simpa using lastSpaceIdx_none hr j'
      · simp [hc] at h

/-- Claim C4 (amended): when content is longer than `max_length`, the title is
the `"Q&A: "` prefix, then the truncated slice backed off to its last space
exactly when that space's index strictly exceeds `0.7 * max_length`, then
`"..."`. -/
theorem generate_title_truncation_spec (content : String) (ml : Nat)
    (h : ml < content.data.length) : TitleTruncSpec content ml := by
  unfold TitleTruncSpec generate_title
  rw [if_pos h]
  cases hls : lastSpaceIdx (content.data.take ml) with
  | some i =>
    obtain ⟨h1, h2⟩ := lastSpaceIdx_some hls
    by_cases hcond : 7 * ml < 10 * i
    · exact Or.inl ⟨i, ⟨h1, h2⟩, hcond, by simp [hcond]⟩
    · refine Or.inr ⟨?_, by simp [hcond]⟩
      intro i' ⟨h1', h2'⟩
      have : i' = i := by
        rcases Nat.lt_trichotomy i' i with hlt | heq | hgt
        · exact absurd h1 (h2' i hlt)
        · exact heq
        · exact absurd h1' (h2 i' hgt)
      omega
  | none =>
    refine Or.inr ⟨?_, by simp⟩
    intro i' ⟨h1', _⟩
    exact absurd h1' (lastSpaceIdx_none hls i')

/-- Witness for the title truncation claim at a concrete input. -/
theorem generate_title_truncation_spec_w : TitleTruncSpec "hello world foo" 10 :=
  generate_title_truncation_spec "hello world foo" 10 (by decide)

/-- Counterexample to claim C4 as stated: with the last space of the slice at
index exactly `42 = 60 * 0.7`, the code keeps the hard cut (strict `>`), while
the claim's "at least" would break at the space. -/
theorem generate_title_threshold_cex :
    generate_title "aaaaaaaaaaaaaaaaaaaaaaaaaaaaaaaaaaaaaaaaaa bbbbbbbbbbbbbbbbbccc" 60 =
      "Q&A: aaaaaaaaaaaaaaaaaaaaaaaaaaaaaaaaaaaaaaaaaa bbbbbbbbbbbbbbbbb..." ∧
    generate_title "aaaaaaaaaaaaaaaaaaaaaaaaaaaaaaaaaaaaaaaaaa bbbbbbbbbbbbbbbbbccc" 60 ≠
      "Q&A: aaaaaaaaaaaaaaaaaaaaaaaaaaaaaaaaaaaaaaaaaa..." := by
  constructor
  · decide
  · decide

/-- Claim C10: with the default `max_length` of 60, a title never exceeds
`5 + 60 + 3 = 68` characters. -/
theorem generate_title_length_le (content : String) : (generate_title content).length ≤ 68 := by
  have hQ : ("Q&A: ".data).length = 5 := rfl
  have hD : ("...".data).length = 3 := rfl
  have htc : (content.data.take 60).length ≤ 60 := by
    simp [List.length_take]
  simp only [generate_title]
  split
  · cases hls : lastSpaceIdx (content.data.take 60) with
    | some i =>
      by_cases hc : 7 * 60 < 10 * i
      · simp only [hls, if_pos hc, String.length, List.length_append, List.length_take,
          List.length_cons, List.length_nil]
        omega
      · simp only [hls, if_neg hc, String.length, List.length_append, List.length_take,
          List.length_cons, List.length_nil]
        omega
    | none =>
      simp only [hls, String.length, List.length_append, List.length_take, List.length_cons,
        List.length_nil]
      omega
  · simp only [String.length, List.length_append, List.length_take, List.length_cons,
      List.length_nil]
    omega

/-- Claim C5 (amended): on the spec's end-to-end example the inline trim also
consumes the `?` (the pattern's optional `[.!?]` is part of the match), so
sanitization yields `"How do I enable the feature."` with an appended period,
and the title is that with the `"Q&A: "` prefix. -/
theorem end_to_end_example_amended :
    sanitize_content "How do I enable the feature? Thanks, John Smith" =
      "How do I enable the feature." ∧
    generate_title (sanitize_content "How do I enable the feature? Thanks, John Smith") =
      "Q&A: How do I enable the feature." := by
  constructor
  · decide
  · decide

/-- Counterexample to claim C5 as stated: the sanitized result does not keep
the question mark. -/
theorem end_to_end_example_cex :
    sanitize_content "How do I enable the feature? Thanks, John Smith" ≠
      "How do I enable the feature?" := by decide

/-! ## Lemmas: case-insensitive comparison and the row filter -/

theorem char_toNat_ofNat {n : Nat} (h : n < 55296) : (Char.ofNat n).toNat = n := by
  unfold Char.ofNat
  rw [dif_pos (Or.inl h)]
  rfl

theorem char_toNat_inj {a b : Char} (h : a.toNat = b.toNat) : a = b :=
  Char.ext (UInt32.ext h)

theorem char_eq_iff_toNat {a b : Char} : a = b ↔ a.toNat = b.toNat :=
  ⟨fun h => h ▸ rfl, char_toNat_inj⟩

theorem char_toLower_eq (c : Char) :
    c.toLower = if 65 ≤ c.toNat ∧ c.toNat ≤ 90 then Char.ofNat (c.toNat + 32) else c := by
  unfold Char.toLower
  split
  · rw [if_pos]
    omega
  · rw [if_neg]
    omega

theorem char_toUpper_eq (c : Char) :
    c.toUpper = if 97 ≤ c.toNat ∧ c.toNat ≤ 122 then Char.ofNat (c.toNat - 32) else c := by
  unfold Char.toUpper
  split
  · rw [if_pos]
    omega
  · rw [if_neg]
    omega

/-- For an upper-case target letter, comparing after `upper()` and comparing
after `lower()` agree — the heart of "case-insensitive equality". -/
theorem toUpper_eq_iff_toLower_eq {c t : Char} (h1 : 65 ≤ t.toNat) (h2 : t.toNat ≤ 90) :
    c.toUpper = t ↔ c.toLower = t.toLower := by
  have hT : t.toLower = Char.ofNat (t.toNat + 32) := by
    rw [char_toLower_eq t, if_pos ⟨h1, h2⟩]
  rw [char_toUpper_eq c, char_toLower_eq c, hT]
  by_cases hlo : 97 ≤ c.toNat ∧ c.toNat ≤ 122
  · rw [if_pos hlo, if_neg (by omega)]
    rw [char_eq_iff_toNat, char_eq_iff_toNat]
    rw [char_toNat_ofNat (by omega), char_toNat_ofNat (by omega)]
    omega
  · rw [if_neg hlo]
    by_cases hup : 65 ≤ c.toNat ∧ c.toNat ≤ 90
    · rw [if_pos hup]
      rw [char_eq_iff_toNat, char_eq_iff_toNat]
      rw [char_toNat_ofNat (by omega), char_toNat_ofNat (by omega)]
      omega
    · rw [if_neg hup]
      rw [char_eq_iff_toNat, char_eq_iff_toNat]
      rw [char_toNat_ofNat (by omega)]
      constructor
      · intro h
        omega
      · intro h
        omega

/-- List level: mapping `toUpper` onto an all-upper-case target is the same
test as comparing the `toLower` images. -/
theorem map_toUpper_eq_iff {l : List Char} :
    ∀ {t : List Char}, (∀ c ∈ t, 65 ≤ c.toNat ∧ c.toNat ≤ 90) →
      (l.map Char.toUpper = t ↔ l.map Char.toLower = t.map Char.toLower) := by
  induction l with
  | nil =>
    intro t ht
    cases t with
    | nil => simp
    | cons t0 t' => simp
  | cons c l' ih =>
    intro t ht
    cases t with
    | nil => simp
    | cons t0 t' =>
      simp only [List.map_cons, List.cons.injEq]
      have h0 := ht t0 (by simp)
      constructor
      · rintro ⟨ha, hb⟩
        exact ⟨(toUpper_eq_iff_toLower_eq h0.1 h0.2).mp ha,
          (ih fun c hc => ht c (by simp [hc])).mp hb⟩
      · rintro ⟨ha, hb⟩
        exact ⟨(toUpper_eq_iff_toLower_eq h0.1 h0.2).mpr ha,
          (ih fun c hc => ht c (by simp [hc])).mpr hb⟩

theorem filterLoop_eq (rows : List Record) :
    ∀ acc, filterLoop rows acc = acc ++ rows.filter isQuestionRow := by
  induction rows with
  | nil => intro acc; simp [filterLoop]
  | cons r rest ih =>
    intro acc
    rw [filterLoop, List.filter]
    by_cases h : isQuestionRow r
    · rw [if_pos h, h, ih]
      simp
    · rw [if_neg h, ih]
      have : isQuestionRow r = false := by
        cases hq : isQuestionRow r
        · rfl
        · exact absurd hq h
      rw [this]

/-- Claim C6: the filter returns exactly the ordered sub-sequence of rows
whose `Source` is case-insensitively `ATTENDEE` and whose `Type` is
case-insensitively `QUESTION`; a missing field reads as `""` (built into
`rowGet`), and the function is total by construction. -/
theorem filter_questions_spec (rows : List Record) :
    filter_questions rows = rows.filter isQuestionRow ∧
    List.Sublist (filter_questions rows) rows ∧
    ∀ r : Record, isQuestionRow r = true ↔
      (ciEqStr (rowGet r "Source") "ATTENDEE" ∧ ciEqStr (rowGet r "Type") "QUESTION") := by
  have hfq : filter_questions rows = rows.filter isQuestionRow := by
    rw [filter_questions, filterLoop_eq]
    simp
  refine ⟨hfq, by rw [hfq]; exact List.filter_sublist rows, ?_⟩
  intro r
  rw [isQuestionRow, Bool.and_eq_true, beq_iff_eq, beq_iff_eq]
  unfold ciEqStr
  have hmk : ∀ x y : String, x = y ↔ x.data = y.data := by
    intro x y
    constructor
    · intro h; rw [h]
    · intro h
      cases x
      cases y
      exact congrArg String.mk h
  rw [hmk, hmk]
  have hA : (∀ c ∈ "ATTENDEE".data, 65 ≤ c.toNat ∧ c.toNat ≤ 90) := by decide
  have hQ2 : (∀ c ∈ "QUESTION".data, 65 ≤ c.toNat ∧ c.toNat ≤ 90) := by decide
  rw [show (pyUpper (rowGet r "Source")).data = (rowGet r "Source").data.map Char.toUpper from rfl]
  rw [show (pyUpper (rowGet r "Type")).data = (rowGet r "Type").data.map Char.toUpper from rfl]
  rw [map_toUpper_eq_iff hA, map_toUpper_eq_iff hQ2]

/-! ## Lemmas: stripping -/

theorem dropWhile_idem (p : Char → Bool) (l : List Char) :
    (l.dropWhile p).dropWhile p = l.dropWhile p := by
  induction l with
  | nil => simp
  | cons c cs ih =>
    by_cases h : p c
    · simp only [List.dropWhile_cons, h, if_true]
      exact ih
    · simp only [List.dropWhile_cons, h, if_false]
      simp [List.dropWhile_cons, h]

theorem pyLstripL_idem (l : List Char) : pyLstripL (pyLstripL l) = pyLstripL l :=
  dropWhile_idem isPySpace l

theorem pyRstripL_idem (l : List Char) : pyRstripL (pyRstripL l) = pyRstripL l := by
  unfold pyRstripL
  rw [List.reverse_reverse, dropWhile_idem]

/-- `lstrip` does nothing when the head is not whitespace. -/
theorem pyLstripL_eq_self {l : List Char} (h : ∀ c, l.head? = some c → isPySpace c = false) :
    pyLstripL l = l := by
  cases l with
  | nil => rfl
  | cons c cs =>
    have := h c rfl
    simp [pyLstripL, List.dropWhile_cons, this]

/-- `rstrip` does nothing when the last character is not whitespace. -/
theorem pyRstripL_eq_self {l : List Char} (h : ∀ c, l.getLast? = some c → isPySpace c = false) :
    pyRstripL l = l := by
  unfold pyRstripL
  cases hr : l.reverse with
  | nil => simpa using congrArg List.reverse hr
  | cons c cs =>
    have hh : l.getLast? = some c := by
      rw [← List.head?_reverse, hr]
      rfl
    rw [List.dropWhile_cons, h c hh]
    simp only [Bool.false_eq_true, if_false]
    rw [← hr, List.reverse_reverse]

/-- `rstrip` keeps a prefix: the input is the output plus trailing whitespace. -/
theorem pyRstripL_decomp (l : List Char) :
    ∃ t, l = pyRstripL l ++ t ∧ ∀ c ∈ t, isPySpace c = true := by
  refine ⟨(l.reverse.takeWhile isPySpace).reverse, ?_, ?_⟩
  · unfold pyRstripL
    have := congrArg List.reverse (List.takeWhile_append_dropWhile isPySpace l.reverse)
    rw [List.reverse_append, List.reverse_reverse] at this
    exact this.symm
  · intro c hc
    rw [List.mem_reverse] at hc
    exact List.mem_takeWhile_imp hc

/-- `lstrip` removes a whitespace prefix. -/
theorem pyLstripL_decomp (l : List Char) :
    ∃ t, l = t ++ pyLstripL l ∧ ∀ c ∈ t, isPySpace c = true := by
  refine ⟨l.takeWhile isPySpace, (List.takeWhile_append_dropWhile isPySpace l).symm, ?_⟩
  intro c hc
  exact List.mem_takeWhile_imp hc

/-- The head of a `dropWhile` result does not satisfy the predicate. -/
theorem head_dropWhile_false {p : Char → Bool} {l : List Char} {c : Char}
    (h : (l.dropWhile p).head? = some c) : p c = false := by
  induction l with
  | nil => simp at h
  | cons d ds ih =>
    by_cases hd : p d
    · rw [List.dropWhile_cons, hd] at h
      simp only [if_true] at h
      exact ih h
    · rw [List.dropWhile_cons] at h
      simp only [hd, Bool.false_eq_true, if_false, List.head?_cons, Option.some.injEq] at h
      subst h
      simpa using hd

/-- The head of a nonempty `lstrip` result is not whitespace. -/
theorem pyLstripL_head {l : List Char} {c : Char} (h : (pyLstripL l).head? = some c) :
    isPySpace c = false :=
  head_dropWhile_false h

/-- The last character of a nonempty `rstrip` result is not whitespace. -/
theorem pyRstripL_getLast {l : List Char} {c : Char} (h : (pyRstripL l).getLast? = some c) :
    isPySpace c = false := by
  unfold pyRstripL at h
  rw [← List.head?_reverse, List.reverse_reverse] at h
  exact head_dropWhile_false h

/-- Strip is idempotent. -/
theorem pyStripL_idem (l : List Char) : pyStripL (pyStripL l) = pyStripL l := by
  unfold pyStripL
  have h1 : pyLstripL (pyRstripL (pyLstripL l)) = pyRstripL (pyLstripL l) := by
    apply pyLstripL_eq_self
    intro c hc
    obtain ⟨t, ht, _⟩ := pyRstripL_decomp (pyLstripL l)
    have : (pyLstripL l).head? = some c := by
      rw [ht]
      cases hrs : pyRstripL (pyLstripL l) with
      | nil => rw [hrs] at hc; simp at hc
      | cons x xs =>
        rw [hrs] at hc
        simp at hc
        simp [hc]
    exact pyLstripL_head this
  rw [h1, pyRstripL_idem]

/-! ## Lemmas: the redaction scan's bounds and reassembly -/

theorem pickTld_bound {cs : List Char} {j : Nat} :
    ∀ {b : Nat}, pickTld cs b = some j → 2 ≤ j ∧ j ≤ cs.length := by
  intro b
  induction b with
  | zero => intro h; simp [pickTld] at h
  | succ b' ih =>
    intro h
    rw [pickTld] at h
    by_cases hb : b' + 1 < 2
    · rw [if_pos hb] at h; simp at h
    · rw [if_neg hb] at h
      cases hg : cs[b']? with
      | some ch =>
        simp only [hg] at h
        by_cases hbd : bdry (isWordCh ch) cs[b' + 1]? = true
        · rw [if_pos hbd] at h
          cases h
          have : b' < cs.length := by
            by_contra hlen
            rw [List.getElem?_eq_none (by omega)] at hg
            cases hg
          omega
        · rw [if_neg hbd] at h
          exact ih h
      | none =>
        simp only [hg] at h
        exact ih h

theorem tryDom_bound {tp : Char → Bool} {cs : List Char} {m : Nat} :
    ∀ {k0 : Nat}, tryDom tp cs k0 = some m → 1 ≤ m ∧ m ≤ cs.length := by
  intro k0
  induction k0 with
  | zero => intro h; simp [tryDom] at h
  | succ k ih =>
    intro h
    rw [tryDom] at h
    by_cases hdot : cs[k + 1]? = some '.'
    · rw [if_pos hdot] at h
      cases hp : pickTld (cs.drop (k + 2)) ((cs.drop (k + 2)).takeWhile tp).length with
      | some j =>
        simp only [hp] at h
        cases h
        obtain ⟨hj2, hjle⟩ := pickTld_bound hp
        have hk : k + 1 < cs.length := by
          by_contra hlen
          rw [List.getElem?_eq_none (by omega)] at hdot
          cases hdot
        rw [List.length_drop] at hjle
        omega
      | none =>
        simp only [hp] at h
        exact ih h
    · rw [if_neg hdot] at h
      exact ih h

theorem matchEmail_bound {tp : Char → Bool} {w : Bool} {cs : List Char} {n : Nat}
    (h : matchEmail tp w cs = some n) : 1 ≤ n ∧ n ≤ cs.length := by
  cases cs with
  | nil => simp [matchEmail] at h
  | cons c rest =>
    rw [matchEmail] at h
    by_cases hb : bdry w (some c) = true
    · rw [if_pos hb] at h
      by_cases hlp : localLen (c :: rest) = 0
      · rw [if_pos hlp] at h
        cases h
      · rw [if_neg hlp] at h
        by_cases hat : (c :: rest)[localLen (c :: rest)]? = some '@'
        · rw [if_pos hat] at h
          cases ht : tryDom tp ((c :: rest).drop (localLen (c :: rest) + 1))
              (domLen ((c :: rest).drop (localLen (c :: rest) + 1))) with
          | some m =>
            simp only [ht] at h
            cases h
            obtain ⟨hm1, hm2⟩ := tryDom_bound ht
            rw [List.length_drop] at hm2
            have hlt : localLen (c :: rest) < (c :: rest).length := by
              by_contra hlen
              rw [List.getElem?_eq_none (by omega)] at hat
              cases hat
            omega
          | none =>
            simp only [ht] at h
            cases h
        · rw [if_neg hat] at h
          cases h
    · rw [if_neg hb] at h
      cases h

/-- The scan's pieces reassemble to the input (nothing is lost or reordered). -/
theorem emailScan_orig (tp : Char → Bool) :
    ∀ (fuel : Nat) (w : Bool) (cs : List Char), cs.length ≤ fuel →
      ((emailScan tp fuel w cs).map origP).flatten = cs := by
  intro fuel
  induction fuel with
  | zero =>
    intro w cs hle
    have : cs = [] := List.length_eq_zero.mp (by omega)
    subst this
    rfl
  | succ f ih =>
    intro w cs hle
    cases cs with
    | nil => rfl
    | cons c rest =>
      rw [emailScan]
      cases hm : matchEmail tp w (c :: rest) with
      | some n =>
        obtain ⟨hn1, hn2⟩ := matchEmail_bound hm
        simp only [List.map_cons, List.flatten_cons, origP]
        rw [ih (lastBit ((c :: rest).take n)) ((c :: rest).drop n) ?_]
        · exact List.take_append_drop n (c :: rest)
        · rw [List.length_drop]
          simp only [List.length_cons] at hn2 hle ⊢
          omega
      | none =>
        simp only [List.map_cons, List.flatten_cons, origP]
        rw [ih (isWordCh c) rest (by simpa using Nat.le_of_succ_le_succ (by simpa using hle))]
        rfl

/-- If the scan finds no email, redaction is the identity. -/
theorem redactL_of_no_email {cs : List Char} (h : hasEmailL cs = false) :
    redactL isTldCh cs = cs := by
  unfold hasEmailL at h
  unfold redactL
  have hall : ∀ p ∈ emailScan isTldCh cs.length false cs, renderP p = origP p := by
    intro p hp
    rw [List.any_eq_false] at h
    have := h p hp
    cases p with
    | keep c => rfl
    | email m => simp at this
  rw [List.map_congr_left hall]
  exact emailScan_orig isTldCh cs.length false cs (Nat.le_refl _)

/-! ## Lemmas: split/join and the line loop -/

theorem splitNL_ne_nil (cs : List Char) : splitNL cs ≠ [] := by
  cases cs with
  | nil => simp [splitNL]
  | cons c rest =>
    rw [splitNL]
    by_cases h : c = '\n'
    · simp [h]
    · have : (c == '\n') = false := by simpa using h
      rw [this]
      simp only [Bool.false_eq_true, if_false]
      cases hs : splitNL rest with
      | nil => simp
      | cons l ls => simp

theorem joinNL_splitNL (cs : List Char) : joinNL (splitNL cs) = cs := by
  induction cs with
  | nil => rfl
  | cons c rest ih =>
    by_cases h : c = '\n'
    · subst h
      have hsplit : splitNL ('\n' :: rest) = [] :: splitNL rest := by
        rw [splitNL]
        simp
      rw [hsplit]
      cases hs : splitNL rest with
      | nil => exact absurd hs (splitNL_ne_nil rest)
      | cons l ls =>
        rw [hs] at ih
        rw [show joinNL ([] :: l :: ls) = [] ++ '\n' :: joinNL (l :: ls) from rfl]
        rw [List.nil_append, ih]
    · have hbeq : (c == '\n') = false := by simpa using h
      cases hs : splitNL rest with
      | nil => exact absurd hs (splitNL_ne_nil rest)
      | cons l ls =>
        have hsplit : splitNL (c :: rest) = (c :: l) :: ls := by
          rw [splitNL, hbeq]
          simp only [Bool.false_eq_true, if_false, hs]
        rw [hsplit]
        rw [hs] at ih
        cases ls with
        | nil =>
          rw [show joinNL [l] = l from rfl] at ih
          rw [show joinNL [c :: l] = c :: l from rfl, ih]
        | cons l2 ls2 =>
          rw [show joinNL ((c :: l) :: l2 :: ls2) = (c :: l) ++ '\n' :: joinNL (l2 :: ls2)
            from rfl]
          rw [show joinNL (l :: l2 :: ls2) = l ++ '\n' :: joinNL (l2 :: ls2) from rfl] at ih
          rw [← ih]
          simp

theorem keepLoop_of_no_sig {ls : List (List Char)} (h : ∀ l ∈ ls, isSigLine l = false) :
    keepLoop ls false = ls := by
  induction ls with
  | nil => rfl
  | cons l rest ih =>
    rw [keepLoop]
    simp only [Bool.false_eq_true, if_false]
    rw [h l (by simp)]
    simp only [Bool.false_eq_true, if_false]
    rw [ih fun x hx => h x (by simp [hx])]

theorem trimAt_of_none {at1 : Bool → List Char → Bool} {cs : List Char}
    (h : findAt (at1 false) cs = none) : trimAt at1 cs = cs := by
  unfold trimAt
  rw [h]

/-- The head of a nonempty `strip` result is not whitespace. -/
theorem pyStripL_head {l : List Char} {c : Char} (h : (pyStripL l).head? = some c) :
    isPySpace c = false := by
  unfold pyStripL at h
  obtain ⟨t, ht, -⟩ := pyRstripL_decomp (pyLstripL l)
  apply pyLstripL_head (l := l)
  rw [ht]
  cases hrs : pyRstripL (pyLstripL l) with
  | nil => rw [hrs] at h; simp at h
  | cons x xs =>
    rw [hrs] at h
    simp at h
    simp [h]

/-! ## Lemmas: trailing punctuation (claim C7) -/

theorem isPunctCh_not_space {c : Char} (h : isPunctCh c = true) : isPySpace c = false := by
  rcases (by simpa [isPunctCh, or_assoc] using h : c = '.' ∨ c = '!' ∨ c = '?') with h | h | h <;>
    subst h <;> decide

/-- Strip preserves a non-whitespace last character (and nonemptiness). -/
theorem pyStripL_getLast {l : List Char} {c : Char} (hl : l.getLast? = some c)
    (hc : isPySpace c = false) : (pyStripL l).getLast? = some c := by
  unfold pyStripL
  obtain ⟨t, ht, hsp⟩ := pyLstripL_decomp l
  have hne : pyLstripL l ≠ [] := by
    intro hnil
    rw [hnil, List.append_nil] at ht
    subst ht
    have := List.mem_of_mem_getLast? hl
    rw [hsp c this] at hc
    simp at hc
  have hlast : (pyLstripL l).getLast? = some c := by
    rw [ht] at hl
    rwa [List.getLast?_append_of_ne_nil _ hne] at hl
  rw [pyRstripL_eq_self]
  · exact hlast
  · intro d hd
    rw [hlast] at hd
    cases hd
    exact hc

/-- `appendDot` output is empty or ends with sentence punctuation. -/
theorem appendDot_endPunct (r : List Char) :
    appendDot r = [] ∨ endPunct (appendDot r) = true := by
  unfold appendDot
  by_cases h0 : r.isEmpty
  · rw [if_pos h0]
    left
    simpa using h0
  · rw [if_neg h0]
    by_cases hp : endPunct r
    · rw [if_pos hp]
      right
      exact hp
    · rw [if_neg hp]
      right
      unfold endPunct
      rw [List.getLast?_append_of_ne_nil _ (by simp)]
      decide

/-- Claim C7: sanitization is total (by construction), its output is trimmed,
a nonempty output ends in `.`, `!` or `?`, and the period is appended exactly
when the rstripped text after signature removal is nonempty and does not
already end in one of the three. -/
theorem sanitize_content_total_punct (c : String) :
    pyStripL (sanitize_content c).data = (sanitize_content c).data ∧
    ((sanitize_content c).data ≠ [] → endPunct (sanitize_content c).data = true) ∧
    (sanitize_content c).data = pyStripL (appendDot (preFinalL (redactL isTldCh c.data))) ∧
    (appendDot (preFinalL (redactL isTldCh c.data)) ≠ preFinalL (redactL isTldCh c.data) ↔
      preFinalL (redactL isTldCh c.data) ≠ [] ∧
        endPunct (preFinalL (redactL isTldCh c.data)) = false) := by
  have hdata : (sanitize_content c).data =
      pyStripL (pyStripL (appendDot (preFinalL (redactL isTldCh c.data)))) := by
    simp only [sanitize_content, removeSigL]
  have h3 : (sanitize_content c).data =
      pyStripL (appendDot (preFinalL (redactL isTldCh c.data))) := by
    rw [hdata, pyStripL_idem]
  refine ⟨?_, ?_, h3, ?_⟩
  · rw [h3, pyStripL_idem]
  · intro hne
    rcases appendDot_endPunct (preFinalL (redactL isTldCh c.data)) with h | h
    · rw [h3, h] at hne
      simp [pyStripL, pyLstripL, pyRstripL] at hne
    · unfold endPunct at h
      cases hl : (appendDot (preFinalL (redactL isTldCh c.data))).getLast? with
      | none => rw [hl] at h; simp at h
      | some d =>
        rw [hl] at h
        rw [h3]
        unfold endPunct
        rw [pyStripL_getLast hl (isPunctCh_not_space h)]
        exact h
  · set r := preFinalL (redactL isTldCh c.data) with hr
    unfold appendDot
    by_cases h0 : r.isEmpty
    · rw [if_pos h0]
      have : r = [] := by simpa using h0
      simp [this]
    · rw [if_neg h0]
      by_cases hp : endPunct r
      · rw [if_pos hp]
        constructor
        · intro h; exact absurd rfl h
        · rintro ⟨-, h2⟩
          rw [hp] at h2
          simp at h2
      · rw [if_neg hp]
        constructor
        · intro _
          refine ⟨by simpa using h0, ?_⟩
          cases he : endPunct r
          · rfl
          · exact absurd he hp
        · intro _
          intro hcontra
          have := congrArg List.length hcontra
          simp at this

/-! ## Claim C8: sanitizing cue-free text only trims and normalizes -/

/-- Claim C8: when the content has no email match, no signature line and no
inline occurrence (checked on the stripped text, where the trims run), the
sanitized result is the stripped content with at most a period appended. -/
theorem sanitize_no_cues_normalizes (c : String)
    (h1 : hasEmailL c.data = false)
    (h2 : hasLineCue c.data = false)
    (h3 : hasInlineCue (pyStripL c.data) = false) :
    (sanitize_content c).data = appendDot (pyStripL c.data) := by
  have hdata : (sanitize_content c).data =
      pyStripL (pyStripL (appendDot (preFinalL (redactL isTldCh c.data)))) := by
    simp only [sanitize_content, removeSigL]
  have hr : redactL isTldCh c.data = c.data := redactL_of_no_email h1
  have hline : lineStageL c.data = pyStripL c.data := by
    unfold lineStageL
    rw [keepLoop_of_no_sig, joinNL_splitNL]
    unfold hasLineCue at h2
    rw [List.any_eq_false] at h2
    intro l hl
    simpa using h2 l hl
  have hf1 : findAt (t1At false) (pyStripL c.data) = none := by
    unfold hasInlineCue at h3
    rw [Bool.or_eq_false_iff] at h3
    rcases h3 with ⟨ha, -⟩
    cases hq : findAt (t1At false) (pyStripL c.data) with
    | none => rfl
    | some v => rw [hq] at ha; simp at ha
  have hf2 : findAt (t2At false) (pyStripL c.data) = none := by
    unfold hasInlineCue at h3
    rw [Bool.or_eq_false_iff] at h3
    rcases h3 with ⟨-, hb⟩
    cases hq : findAt (t2At false) (pyStripL c.data) with
    | none => rfl
    | some v => rw [hq] at hb; simp at hb
  have hpre : preFinalL (redactL isTldCh c.data) = pyStripL c.data := by
    unfold preFinalL trim1L trim2L
    rw [hr, hline, trimAt_of_none hf1, trimAt_of_none hf2]
    exact pyRstripL_idem (pyLstripL c.data)
  rw [hdata, hpre, pyStripL_idem]
  set y := pyStripL c.data with hy
  have hyst : pyStripL y = y := by
    rw [hy]
    exact pyStripL_idem c.data
  unfold appendDot
  by_cases h0 : y.isEmpty
  · rw [if_pos h0]
    exact hyst
  · rw [if_neg h0]
    by_cases hp : endPunct y
    · rw [if_pos hp]
      exact hyst
    · rw [if_neg hp]
      have hyne : y ≠ [] := by simpa using h0
      have hhead : ∀ d, (y ++ ['.']).head? = some d → isPySpace d = false := by
        intro d hd
        cases hyy : y with
        | nil => exact absurd hyy hyne
        | cons z zs =>
          rw [hyy] at hd
          simp at hd
          subst hd
          apply pyStripL_head (l := c.data)
          rw [← hy, hyy]
          rfl
      have hlast : ∀ d, (y ++ ['.']).getLast? = some d → isPySpace d = false := by
        intro d hd
        rw [List.getLast?_append_of_ne_nil _ (by simp)] at hd
        simp at hd
        subst hd
        decide
      unfold pyStripL
      rw [pyLstripL_eq_self hhead, pyRstripL_eq_self hlast]

/-- Witness for claim C8 at a concrete cue-free input. -/
theorem sanitize_no_cues_normalizes_w :
    (sanitize_content "hello world").data = appendDot (pyStripL "hello world".data) :=
  sanitize_no_cues_normalizes "hello world" (by decide) (by decide) (by decide)

/-! ## Lemmas: case-insensitive literals and the signature-line patterns -/

theorem litCI_some {pat : List Char} :
    ∀ {l r : List Char}, litCI pat l = some r →
      ∃ pre, l = pre ++ r ∧ pre.map Char.toLower = pat := by
  induction pat with
  | nil =>
    intro l r h
    rw [litCI] at h
    cases h
    exact ⟨[], rfl, rfl⟩
  | cons p ps ih =>
    intro l r h
    cases l with
    | nil => simp [litCI] at h
    | cons c cs =>
      simp only [litCI] at h
      by_cases hc : (c.toLower == p) = true
      · rw [if_pos hc] at h
        obtain ⟨pre, hpre, hmap⟩ := ih h
        refine ⟨c :: pre, by rw [hpre]; rfl, ?_⟩
        rw [List.map_cons, hmap]
        rw [beq_iff_eq] at hc
        rw [hc]
      · rw [if_neg hc] at h
        cases h

theorem litCI_of_map {pre : List Char} :
    ∀ {pat r : List Char}, pre.map Char.toLower = pat → litCI pat (pre ++ r) = some r := by
  induction pre with
  | nil =>
    intro pat r h
    cases h
    rfl
  | cons c cs ih =>
    intro pat r h
    cases h
    rw [List.cons_append]
    simp only [litCI]
    rw [if_pos (by simp)]
    exact ih rfl

theorem dropWhile_eq_self_of_head {p : Char → Bool} {l : List Char}
    (h : ∀ c, l.head? = some c → p c = false) : l.dropWhile p = l := by
  cases l with
  | nil => rfl
  | cons c cs =>
    rw [List.dropWhile_cons, h c rfl]
    simp

theorem dropWhile_append_run {p : Char → Bool} {ws rest : List Char}
    (hws : ∀ c ∈ ws, p c = true) (hr : ∀ c, rest.head? = some c → p c = false) :
    (ws ++ rest).dropWhile p = rest := by
  induction ws with
  | nil => exact dropWhile_eq_self_of_head hr
  | cons c cs ih =>
    rw [List.cons_append, List.dropWhile_cons, hws c (by simp)]
    simp only [if_true]
    exact ih fun x hx => hws x (by simp [hx])

theorem space_toLower {c : Char} (h : isPySpace c = true) : c.toLower = c := by
  have : c = ' ' ∨ c = '\t' ∨ c = '\n' ∨ c = '\r' ∨ c = '\x0b' ∨ c = '\x0c' := by
    simpa [isPySpace, or_assoc] using h
  rcases this with h | h | h | h | h | h <;> subst h <;> decide

theorem kwSig_heads : ∀ kw ∈ kwSig, ∀ d, kw.head? = some d → isPySpace d = false := by
  decide

theorem hdrSig_heads : ∀ w ∈ hdrSig, ∀ d, w.head? = some d → isPySpace d = false := by
  decide

theorem kwSig_ne_nil : ∀ kw ∈ kwSig, kw ≠ [] := by decide

theorem hdrSig_ne_nil : ∀ w ∈ hdrSig, w ≠ [] := by decide

/-- A mapped-to-lower-case prefix of a signature keyword cannot start with
whitespace. -/
theorem mapped_head_not_space {pre kw : List Char} (hmap : pre.map Char.toLower = kw)
    (hkw : ∀ d, kw.head? = some d → isPySpace d = false) :
    ∀ c, pre.head? = some c → isPySpace c = false := by
  intro c hc
  cases hs : isPySpace c with
  | false => rfl
  | true =>
    have hlow : c.toLower = c := space_toLower hs
    have : kw.head? = some c := by
      rw [← hmap, List.head?_map, hc]
      simp [hlow]
    rw [hkw c this] at hs
    cases hs

theorem isSigLine_iff (l : List Char) : isSigLine l = true ↔ SigLineSpec l := by
  constructor
  · intro h
    unfold isSigLine at h
    rw [Bool.or_eq_true] at h
    rcases h with h | h
    · rw [List.any_eq_true] at h
      obtain ⟨kw, hkwmem, hm⟩ := h
      unfold matchSigKw at hm
      cases hlit : litCI kw (l.dropWhile isPySpace) with
      | none => rw [hlit] at hm; cases hm
      | some r =>
        cases r with
        | nil => rw [hlit] at hm; cases hm
        | cons c rest =>
          rw [hlit] at hm
          obtain ⟨pre, hdec, hmap⟩ := litCI_some hlit
          left
          refine ⟨l.takeWhile isPySpace, pre, c, rest, ?_, ?_, ?_, hm⟩
          · conv_lhs => rw [← List.takeWhile_append_dropWhile isPySpace l]
            rw [hdec]
            simp [List.append_assoc]
          · intro x hx
            exact List.mem_takeWhile_imp hx
          · rw [hmap]; exact hkwmem
    · rw [List.any_eq_true] at h
      obtain ⟨w, hwmem, hm⟩ := h
      unfold matchSigHdr at hm
      cases hlit : litCI w (l.dropWhile isPySpace) with
      | none => rw [hlit] at hm; cases hm
      | some r =>
        rw [hlit] at hm
        simp only [beq_iff_eq] at hm
        cases hdw : r.dropWhile isPySpace with
        | nil => rw [hdw] at hm; cases hm
        | cons c tl =>
          rw [hdw] at hm
          simp only [List.head?_cons, Option.some.injEq] at hm
          subst hm
          obtain ⟨pre, hdec, hmap⟩ := litCI_some hlit
          have hrdec : r = r.takeWhile isPySpace ++ ':' :: tl := by
            conv_lhs => rw [← List.takeWhile_append_dropWhile isPySpace r]
            rw [hdw]
          right
          refine ⟨l.takeWhile isPySpace, pre, r.takeWhile isPySpace, tl, ?_, ?_, ?_, ?_⟩
          · conv_lhs => rw [← List.takeWhile_append_dropWhile isPySpace l]
            rw [hdec]
            conv_lhs => rw [hrdec]
            simp [List.append_assoc]
          · intro x hx
            exact List.mem_takeWhile_imp hx
          · rw [hmap]; exact hwmem
          · intro x hx
            exact List.mem_takeWhile_imp hx
  · intro h
    unfold isSigLine
    rw [Bool.or_eq_true]
    rcases h with ⟨ws, pre, c, rest, hdec, hws, hkwmem, hsep⟩ | ⟨ws, pre, ws2, rest, hdec, hws, hwmem, hws2⟩
    · left
      rw [List.any_eq_true]
      refine ⟨pre.map Char.toLower, hkwmem, ?_⟩
      unfold matchSigKw
      have hpre_ne : pre ≠ [] := by
        intro hnil
        rw [hnil] at hkwmem
        exact absurd hkwmem (by decide)
      have hdrop : l.dropWhile isPySpace = pre ++ c :: rest := by
        rw [hdec, List.append_assoc]
        apply dropWhile_append_run hws
        intro x hx
        cases pre with
        | nil => exact absurd rfl hpre_ne
        | cons p0 ps =>
          simp only [List.cons_append, List.head?_cons, Option.some.injEq] at hx
          subst hx
          exact mapped_head_not_space rfl (kwSig_heads _ hkwmem) _ rfl
      rw [hdrop, litCI_of_map rfl]
      exact hsep
    · right
      rw [List.any_eq_true]
      refine ⟨pre.map Char.toLower, hwmem, ?_⟩
      unfold matchSigHdr
      have hpre_ne : pre ≠ [] := by
        intro hnil
        rw [hnil] at hwmem
        exact absurd hwmem (by decide)
      have hdrop : l.dropWhile isPySpace = pre ++ (ws2 ++ ':' :: rest) := by
        rw [hdec, List.append_assoc, List.append_assoc]
        apply dropWhile_append_run hws
        intro x hx
        cases pre with
        | nil => exact absurd rfl hpre_ne
        | cons p0 ps =>
          simp only [List.cons_append, List.head?_cons, Option.some.injEq] at hx
          subst hx
          exact mapped_head_not_space rfl (hdrSig_heads _ hwmem) _ rfl
      rw [hdrop, litCI_of_map rfl]
      simp only
      rw [dropWhile_append_run hws2 (by intro x hx; simp at hx; subst hx; decide)]
      rfl

theorem keepLoop_true (ls : List (List Char)) : keepLoop ls true = [] := by
  induction ls with
  | nil => rfl
  | cons l rest ih => rw [keepLoop, if_pos rfl]; exact ih

theorem keepLoop_eq_takeWhile (ls : List (List Char)) :
    keepLoop ls false = ls.takeWhile fun l => !isSigLine l := by
  induction ls with
  | nil => rfl
  | cons l rest ih =>
    rw [keepLoop]
    simp only [Bool.false_eq_true, if_false]
    cases hs : isSigLine l with
    | true =>
      simp only [if_true]
      rw [keepLoop_true, List.takeWhile_cons, hs]
      rfl
    | false =>
      simp only [Bool.false_eq_true, if_false]
      rw [List.takeWhile_cons, hs]
      simp only [Bool.not_false, if_true]
      rw [ih]

/-- Claim C2 (amended): the line stage keeps exactly the lines before the
first signature line (then strips surrounding whitespace), and a line is a
signature line iff, after optional leading whitespace, it starts with a
case-insensitive keyword followed by one whitespace-or-comma character, or a
case-insensitive header word, optional whitespace and a colon. -/
theorem line_stage_matches_spec (t : String) :
    lineStageL t.data =
      pyStripL (joinNL ((splitNL t.data).takeWhile fun l => !isSigLine l)) ∧
    ∀ l : List Char, isSigLine l = true ↔ SigLineSpec l := by
  constructor
  · unfold lineStageL
    rw [keepLoop_eq_takeWhile]
  · exact isSigLine_iff

/-- Counterexample to claim C2 as stated: a bare keyword line (no trailing
comma or whitespace) is not removed — the separator after the keyword is
required, not optional. -/
theorem line_stage_bare_keyword_cex :
    lineStageL "hello\nthanks".data = "hello\nthanks".data ∧
    lineStageL "hello\nthanks".data ≠ "hello".data := by
  constructor
  · decide
  · decide

/-! ## Lemmas: the inline trims (claim C3) -/

theorem findAt_some {p : List Char → Bool} :
    ∀ {cs : List Char} {n : Nat}, findAt p cs = some n →
      p (cs.drop n) = true ∧ ∀ q, q < n → p (cs.drop q) = false := by
  intro cs
  induction cs with
  | nil => intro n h; simp [findAt] at h
  | cons c rest ih =>
    intro n h
    rw [findAt] at h
    by_cases hp : p (c :: rest) = true
    · rw [if_pos hp] at h
      cases h
      exact ⟨hp, fun q hq => absurd hq (by omega)⟩
    · rw [if_neg hp] at h
      cases hf : findAt p rest with
      | none => rw [hf] at h; cases h
      | some n' =>
        rw [hf] at h
        simp at h
        subst h
        obtain ⟨h1, h2⟩ := ih hf
        refine ⟨by rwa [List.drop_succ_cons], ?_⟩
        intro q hq
        cases q with
        | zero =>
          rw [List.drop_zero]
          cases hval : p (c :: rest) with
          | false => rfl
          | true => exact absurd hval hp
        | succ q' =>
          rw [List.drop_succ_cons]
          exact h2 q' (by omega)

theorem findAt_none {p : List Char → Bool} (hnil : p [] = false) :
    ∀ {cs : List Char}, findAt p cs = none → ∀ q : Nat, p (cs.drop q) = false := by
  intro cs
  induction cs with
  | nil => intro _ q; rw [List.drop_nil]; exact hnil
  | cons c rest ih =>
    intro h q
    rw [findAt] at h
    by_cases hp : p (c :: rest) = true
    · rw [if_pos hp] at h; cases h
    · rw [if_neg hp] at h
      have hrest : findAt p rest = none := by
        cases hf : findAt p rest with
        | none => rfl
        | some n' => rw [hf] at h; simp at h
      cases q with
      | zero =>
        rw [List.drop_zero]
        cases hval : p (c :: rest) with
        | false => rfl
        | true => exact absurd hval hp
      | succ q' =>
        rw [List.drop_succ_cons]
        exact ih hrest q'

theorem tailFull_iff {l : List Char} : tailFull l = true ↔ ∀ x ∈ l, x ≠ '\n' := by
  unfold tailFull
  rw [List.all_eq_true]
  constructor
  · intro h x hx
    simpa using h x hx
  · intro h x hx
    simpa using h x hx

theorem getLast_suffix_ne {pre l : List Char} {c : Char} (h : (pre ++ l).getLast? ≠ some c)
    (hl : l ≠ []) : l.getLast? ≠ some c := by
  rwa [List.getLast?_append_of_ne_nil _ hl] at h

theorem getLast_tail_ne {d c : Char} {rest : List Char} (h : (d :: rest).getLast? ≠ some c) :
    rest.getLast? ≠ some c := by
  cases rest with
  | nil => simp
  | cons e es => rwa [List.getLast?_cons_cons] at h

theorem getLast_drop_ne {cs : List Char} {p : Nat} {c : Char} (h : cs.getLast? ≠ some c) :
    (cs.drop p).getLast? ≠ some c := by
  by_cases hd : cs.drop p = []
  · rw [hd]; simp
  · rw [← List.take_append_drop p cs] at h
    exact getLast_suffix_ne h hd

theorem tail_no_last_nl : ∀ {l : List Char}, l.getLast? ≠ some '\n' → tailKeepNL l = false := by
  intro l
  induction l with
  | nil => intro _; rfl
  | cons c rest ih =>
    intro h
    rw [tailKeepNL]
    cases rest with
    | nil =>
      simp only [List.isEmpty_nil, if_true]
      have : c ≠ '\n' := by
        intro hc
        exact h (by rw [hc]; rfl)
      simpa using this
    | cons d ds =>
      simp only [List.isEmpty_cons, Bool.false_eq_true, if_false]
      rw [ih (by rwa [List.getLast?_cons_cons] at h)]
      simp

theorem sepRun_eq_strict : ∀ {l : List Char}, l.getLast? ≠ some '\n' →
    sepRun false l = sepRun true l := by
  intro l
  induction l with
  | nil => intro _; rfl
  | cons c rest ih =>
    intro h
    rw [sepRun, sepRun]
    rw [tail_no_last_nl (getLast_tail_ne h), ih (getLast_tail_ne h)]
    simp

theorem any_congr_chars {f g : List Char → Bool} :
    ∀ {l : List (List Char)}, (∀ a ∈ l, f a = g a) → l.any f = l.any g := by
  intro l
  induction l with
  | nil => intro _; rfl
  | cons a rest ih =>
    intro h
    rw [List.any_cons, List.any_cons, h a (by simp), ih fun x hx => h x (by simp [hx])]

theorem kwTail_eq_strict {l : List Char} (h : l.getLast? ≠ some '\n') :
    kwTail false l = kwTail true l := by
  unfold kwTail
  apply any_congr_chars
  intro kw _
  cases hlit : litCI kw l with
  | none => rfl
  | some r =>
    obtain ⟨pre, hdec, -⟩ := litCI_some hlit
    by_cases hr : r = []
    · subst hr; rfl
    · exact sepRun_eq_strict (getLast_suffix_ne (by rwa [← hdec]) hr)

theorem wsKwTail_eq_strict : ∀ {l : List Char}, l.getLast? ≠ some '\n' →
    wsKwTail false l = wsKwTail true l := by
  intro l
  induction l with
  | nil => intro _; rfl
  | cons c rest ih =>
    intro h
    rw [wsKwTail, wsKwTail]
    rw [kwTail_eq_strict (getLast_tail_ne h), ih (getLast_tail_ne h)]

theorem t1At_eq_strict {l : List Char} (h : l.getLast? ≠ some '\n') :
    t1At false l = t1At true l := by
  cases l with
  | nil => rfl
  | cons c rest =>
    simp only [t1At]
    rw [wsKwTail_eq_strict (getLast_tail_ne h), wsKwTail_eq_strict h]

theorem t2At_eq_strict {l : List Char} (h : l.getLast? ≠ some '\n') :
    t2At false l = t2At true l := by
  cases l with
  | nil => rfl
  | cons c rest =>
    simp only [t2At]
    rw [wsKwTail_eq_strict (getLast_tail_ne h)]

theorem sepRun_true_iff : ∀ {l : List Char},
    sepRun true l = true ↔ ∃ sep tail, l = sep ++ tail ∧ sep ≠ [] ∧
      (∀ x ∈ sep, isSepCh x = true) ∧ ∀ x ∈ tail, x ≠ '\n' := by
  intro l
  induction l with
  | nil =>
    rw [sepRun]
    constructor
    · intro h; cases h
    · rintro ⟨sep, tail, hdec, hne, -, -⟩
      rcases List.append_eq_nil.mp hdec.symm with ⟨h1, -⟩
      exact absurd h1 hne
  | cons c rest ih =>
    rw [sepRun]
    simp only [if_true]
    rw [Bool.and_eq_true, Bool.or_eq_true]
    constructor
    · rintro ⟨hc, h2 | h2⟩
      · refine ⟨[c], rest, rfl, by simp, ?_, tailFull_iff.mp h2⟩
        intro x hx
        rw [List.mem_singleton] at hx
        rwa [hx]
      · obtain ⟨sep, tail, hdec, -, hsep, htail⟩ := ih.mp h2
        refine ⟨c :: sep, tail, by rw [hdec]; rfl, by simp, ?_, htail⟩
        intro x hx
        rcases List.mem_cons.mp hx with hx | hx
        · rwa [hx]
        · exact hsep x hx
    · rintro ⟨sep, tail, hdec, hne, hsep, htail⟩
      cases sep with
      | nil => exact absurd rfl hne
      | cons s srest =>
        rw [List.cons_append] at hdec
        injection hdec with hc hrest
        subst hc
        refine ⟨hsep c (by simp), ?_⟩
        cases srest with
        | nil =>
          left
          rw [List.nil_append] at hrest
          subst hrest
          exact tailFull_iff.mpr htail
        | cons s2 srest2 =>
          right
          subst hrest
          exact ih.mpr ⟨s2 :: srest2, tail, rfl, by simp,
            fun x hx => hsep x (by simp [hx]), htail⟩

theorem kwTail_true_iff {l : List Char} :
    kwTail true l = true ↔ ∃ kwp sep tail, l = kwp ++ (sep ++ tail) ∧
      kwp.map Char.toLower ∈ kwInline ∧ sep ≠ [] ∧
      (∀ x ∈ sep, isSepCh x = true) ∧ ∀ x ∈ tail, x ≠ '\n' := by
  unfold kwTail
  rw [List.any_eq_true]
  constructor
  · rintro ⟨kw, hkw, hm⟩
    cases hlit : litCI kw l with
    | none => rw [hlit] at hm; cases hm
    | some r =>
      rw [hlit] at hm
      obtain ⟨pre, hdec, hmap⟩ := litCI_some hlit
      obtain ⟨sep, tail, hrdec, hne, hsep, htail⟩ := sepRun_true_iff.mp hm
      exact ⟨pre, sep, tail, by rw [hdec, hrdec], by rw [hmap]; exact hkw, hne, hsep, htail⟩
  · rintro ⟨kwp, sep, tail, hdec, hmem, hne, hsep, htail⟩
    refine ⟨kwp.map Char.toLower, hmem, ?_⟩
    rw [hdec, litCI_of_map rfl]
    exact sepRun_true_iff.mpr ⟨sep, tail, rfl, hne, hsep, htail⟩

theorem wsKwTail_true_iff : ∀ {l : List Char},
    wsKwTail true l = true ↔ ∃ ws r, l = ws ++ r ∧ ws ≠ [] ∧
      (∀ x ∈ ws, isPySpace x = true) ∧ kwTail true r = true := by
  intro l
  induction l with
  | nil =>
    rw [wsKwTail]
    constructor
    · intro h; cases h
    · rintro ⟨ws, r, hdec, hne, -, -⟩
      rcases List.append_eq_nil.mp hdec.symm with ⟨h1, -⟩
      exact absurd h1 hne
  | cons c rest ih =>
    rw [wsKwTail]
    rw [Bool.and_eq_true, Bool.or_eq_true]
    constructor
    · rintro ⟨hc, h2 | h2⟩
      · refine ⟨[c], rest, rfl, by simp, ?_, h2⟩
        intro x hx
        rw [List.mem_singleton] at hx
        rwa [hx]
      · obtain ⟨ws, r, hdec, -, hws, hk⟩ := ih.mp h2
        refine ⟨c :: ws, r, by rw [hdec]; rfl, by simp, ?_, hk⟩
        intro x hx
        rcases List.mem_cons.mp hx with hx | hx
        · rwa [hx]
        · exact hws x hx
    · rintro ⟨ws, r, hdec, hne, hws, hk⟩
      cases ws with
      | nil => exact absurd rfl hne
      | cons s srest =>
        rw [List.cons_append] at hdec
        injection hdec with hc hrest
        subst hc
        refine ⟨hws c (by simp), ?_⟩
        cases srest with
        | nil =>
          left
          rw [List.nil_append] at hrest
          subst hrest
          exact hk
        | cons s2 srest2 =>
          right
          subst hrest
          exact ih.mpr ⟨s2 :: srest2, r, rfl, by simp,
            fun x hx => hws x (by simp [hx]), hk⟩

theorem wsKwTail_inlineSpec {l : List Char} (h : wsKwTail true l = true) :
    ∃ ws kwp sep tail, l = ws ++ (kwp ++ (sep ++ tail)) ∧ ws ≠ [] ∧
      (∀ x ∈ ws, isPySpace x = true) ∧ kwp.map Char.toLower ∈ kwInline ∧ sep ≠ [] ∧
      (∀ x ∈ sep, isSepCh x = true) ∧ ∀ x ∈ tail, x ≠ '\n' := by
  obtain ⟨ws, r, hdec, hne, hws, hk⟩ := wsKwTail_true_iff.mp h
  obtain ⟨kwp, sep, tail, hrdec, hmem, hsne, hsep, htail⟩ := kwTail_true_iff.mp hk
  exact ⟨ws, kwp, sep, tail, by rw [hdec, hrdec], hne, hws, hmem, hsne, hsep, htail⟩

theorem wsKwTail_of_parts {ws kwp sep tail : List Char} (hne : ws ≠ [])
    (hws : ∀ x ∈ ws, isPySpace x = true) (hmem : kwp.map Char.toLower ∈ kwInline)
    (hsne : sep ≠ []) (hsep : ∀ x ∈ sep, isSepCh x = true) (htail : ∀ x ∈ tail, x ≠ '\n') :
    wsKwTail true (ws ++ (kwp ++ (sep ++ tail))) = true :=
  wsKwTail_true_iff.mpr ⟨ws, kwp ++ (sep ++ tail), rfl, hne, hws,
    kwTail_true_iff.mpr ⟨kwp, sep, tail, rfl, hmem, hsne, hsep, htail⟩⟩

theorem t1At_true_iff {l : List Char} : t1At true l = true ↔ InlineSpec l := by
  constructor
  · intro h
    cases l with
    | nil => simp [t1At, wsKwTail] at h
    | cons c rest =>
      rw [t1At, Bool.or_eq_true] at h
      rcases h with h | h
      · rw [Bool.and_eq_true] at h
        obtain ⟨hc, hw⟩ := h
        obtain ⟨ws, kwp, sep, tail, hdec, hne, hws, hmem, hsne, hsep, htail⟩ :=
          wsKwTail_inlineSpec hw
        refine ⟨[c], ws, kwp, sep, tail, ?_, Or.inr ⟨c, rfl, hc⟩, hne, hws, hmem, hsne,
          hsep, htail⟩
        rw [hdec]
        simp [List.append_assoc]
      · obtain ⟨ws, kwp, sep, tail, hdec, hne, hws, hmem, hsne, hsep, htail⟩ :=
          wsKwTail_inlineSpec h
        refine ⟨[], ws, kwp, sep, tail, ?_, Or.inl rfl, hne, hws, hmem, hsne, hsep, htail⟩
        rw [hdec]
        simp [List.append_assoc]
  · rintro ⟨pc, ws, kwp, sep, tail, hdec, hpc, hne, hws, hmem, hsne, hsep, htail⟩
    have hwl : wsKwTail true (ws ++ (kwp ++ (sep ++ tail))) = true :=
      wsKwTail_of_parts hne hws hmem hsne hsep htail
    rcases hpc with hpc | ⟨c, hpc, hc⟩
    · subst hpc
      rw [List.nil_append] at hdec
      cases hws0 : ws with
      | nil => exact absurd hws0 hne
      | cons w0 wrest =>
        have hl : l = w0 :: (wrest ++ (kwp ++ (sep ++ tail))) := by
          rw [hdec, hws0]
          simp [List.append_assoc]
        rw [hl, t1At, Bool.or_eq_true]
        right
        have : ws ++ (kwp ++ (sep ++ tail)) = w0 :: (wrest ++ (kwp ++ (sep ++ tail))) := by
          rw [hws0]
          rfl
        rwa [this] at hwl
    · subst hpc
      have hl : l = c :: (ws ++ (kwp ++ (sep ++ tail))) := by
        rw [hdec]
        simp [List.append_assoc]
      rw [hl, t1At, Bool.or_eq_true]
      left
      rw [Bool.and_eq_true]
      exact ⟨hc, hwl⟩

theorem t2At_true_iff {l : List Char} : t2At true l = true ↔ CommaSpec l := by
  constructor
  · intro h
    cases l with
    | nil => simp [t2At] at h
    | cons c rest =>
      rw [t2At, Bool.and_eq_true] at h
      obtain ⟨hc, hw⟩ := h
      rw [beq_iff_eq] at hc
      subst hc
      obtain ⟨ws, kwp, sep, tail, hdec, hne, hws, hmem, hsne, hsep, htail⟩ :=
        wsKwTail_inlineSpec hw
      refine ⟨ws, kwp, sep, tail, ?_, hne, hws, hmem, hsne, hsep, htail⟩
      rw [hdec]
      simp [List.append_assoc]
  · rintro ⟨ws, kwp, sep, tail, hdec, hne, hws, hmem, hsne, hsep, htail⟩
    have hl : l = ',' :: (ws ++ (kwp ++ (sep ++ tail))) := by
      rw [hdec]
      simp [List.append_assoc]
    rw [hl, t2At, Bool.and_eq_true]
    exact ⟨rfl, wsKwTail_of_parts hne hws hmem hsne hsep htail⟩

theorem t1At_nil_false : t1At false [] = false := by
  simp [t1At, wsKwTail]

theorem t2At_nil_false : t2At false [] = false := by
  simp [t2At]

/-- Claim C3 (amended), for both trims on inputs that do not end in a newline
(inside `remove_signature_lines` the trims run on stripped text): each trim
removes the suffix starting at the leftmost occurrence of its pattern, and is
the identity when the pattern occurs nowhere. -/
theorem inline_trims_match_spec (s u : String)
    (hs : s.data.getLast? ≠ some '\n') (hu : u.data.getLast? ≠ some '\n') :
    InlineTrimClaims s.data u.data := by
  have hdropeq1 : ∀ p : Nat, t1At false (s.data.drop p) = t1At true (s.data.drop p) :=
    fun p => t1At_eq_strict (getLast_drop_ne hs)
  have hdropeq2 : ∀ p : Nat, t2At false (u.data.drop p) = t2At true (u.data.drop p) :=
    fun p => t2At_eq_strict (getLast_drop_ne hu)
  refine ⟨?_, ?_, ?_, ?_⟩
  · intro hno
    unfold trim1L trimAt
    cases hf : findAt (t1At false) s.data with
    | none => rfl
    | some p =>
      obtain ⟨h1, -⟩ := findAt_some hf
      rw [hdropeq1 p] at h1
      exact absurd (t1At_true_iff.mp h1) (hno p)
  · intro p hp hmin
    unfold trim1L trimAt
    cases hf : findAt (t1At false) s.data with
    | none =>
      have := findAt_none t1At_nil_false hf p
      rw [hdropeq1 p] at this
      rw [t1At_true_iff.mpr hp] at this
      cases this
    | some p' =>
      obtain ⟨h1, h2⟩ := findAt_some hf
      rw [hdropeq1 p'] at h1
      have hp'spec := t1At_true_iff.mp h1
      have hle1 : ¬ p < p' := by
        intro hlt
        have := h2 p hlt
        rw [hdropeq1 p, t1At_true_iff.mpr hp] at this
        cases this
      have hle2 : ¬ p' < p := fun hlt => (hmin p' hlt) hp'spec
      have hpp : p' = p := by omega
      subst hpp
      simp only [if_pos h1]
  · intro hno
    unfold trim2L trimAt
    cases hf : findAt (t2At false) u.data with
    | none => rfl
    | some p =>
      obtain ⟨h1, -⟩ := findAt_some hf
      rw [hdropeq2 p] at h1
      exact absurd (t2At_true_iff.mp h1) (hno p)
  · intro p hp hmin
    unfold trim2L trimAt
    cases hf : findAt (t2At false) u.data with
    | none =>
      have := findAt_none t2At_nil_false hf p
      rw [hdropeq2 p] at this
      rw [t2At_true_iff.mpr hp] at this
      cases this
    | some p' =>
      obtain ⟨h1, h2⟩ := findAt_some hf
      rw [hdropeq2 p'] at h1
      have hp'spec := t2At_true_iff.mp h1
      have hle1 : ¬ p < p' := by
        intro hlt
        have := h2 p hlt
        rw [hdropeq2 p, t2At_true_iff.mpr hp] at this
        cases this
      have hle2 : ¬ p' < p := fun hlt => (hmin p' hlt) hp'spec
      have hpp : p' = p := by omega
      subst hpp
      simp only [if_pos h1]

/-- Witness for claim C3 at concrete inputs. -/
theorem inline_trims_match_spec_w : InlineTrimClaims "x. regards bob".data "a, thanks bob".data :=
  inline_trims_match_spec "x. regards bob" "a, thanks bob" (by decide) (by decide)

/-- Counterexample to claim C3 as stated: `re.sub` removes from the leftmost
(first) pattern occurrence, not from the last one. -/
theorem inline_trim_leftmost_cex :
    trim1L "a thanks b. thanks c".data = "a".data ∧
    trim1L "a thanks b. thanks c".data ≠ "a thanks b".data := by
  constructor
  · decide
  · decide

/-! ## Lemmas: soundness of the email matcher (claim C1) -/

theorem length_takeWhile_le {p : Char → Bool} {l : List Char} :
    (l.takeWhile p).length ≤ l.length := by
  calc (l.takeWhile p).length ≤ (l.takeWhile p).length + (l.dropWhile p).length := by omega
    _ = l.length := by rw [← List.length_append, List.takeWhile_append_dropWhile]

theorem take_all_of_le_run {p : Char → Bool} {cs : List Char} {n : Nat}
    (h : n ≤ (cs.takeWhile p).length) : ∀ x ∈ cs.take n, p x = true := by
  intro x hx
  have hcs : cs.take n = (cs.takeWhile p).take n := by
    conv_lhs => rw [← List.takeWhile_append_dropWhile p cs]
    rw [List.take_append_of_le_length h]
  rw [hcs] at hx
  exact List.mem_takeWhile_imp (List.mem_of_mem_take hx)

theorem getLast?_cons_of_ne_nil {a : Char} {l : List Char} (h : l ≠ []) :
    (a :: l).getLast? = l.getLast? := by
  rw [show a :: l = [a] ++ l from rfl, List.getLast?_append_of_ne_nil _ h]

theorem getLast?_take_of_getElem {l : List Char} {j : Nat} {ch : Char}
    (hj : 1 ≤ j) (hch : l[j - 1]? = some ch) : (l.take j).getLast? = some ch := by
  have hj' : j = (j - 1) + 1 := by omega
  rw [hj', List.take_succ, hch]
  rw [List.getLast?_append_of_ne_nil _ (by simp [Option.toList])]
  simp [Option.toList]

theorem head?_take_of_pos {l : List Char} {n : Nat} (hn : 1 ≤ n) :
    (l.take n).head? = l.head? := by
  cases l with
  | nil => simp
  | cons c rest =>
    have : n = (n - 1) + 1 := by omega
    rw [this, List.take_succ_cons]
    rfl

theorem pickTld_sound {cs : List Char} {j : Nat} :
    ∀ {b : Nat}, pickTld cs b = some j →
      2 ≤ j ∧ j ≤ b ∧ ∃ ch, cs[j - 1]? = some ch ∧ bdry (isWordCh ch) cs[j]? = true := by
  intro b
  induction b with
  | zero => intro h; simp [pickTld] at h
  | succ b' ih =>
    intro h
    rw [pickTld] at h
    by_cases hb : b' + 1 < 2
    · rw [if_pos hb] at h; simp at h
    · rw [if_neg hb] at h
      cases hg : cs[b']? with
      | some ch =>
        simp only [hg] at h
        by_cases hbd : bdry (isWordCh ch) cs[b' + 1]? = true
        · rw [if_pos hbd] at h
          cases h
          exact ⟨by omega, Nat.le_refl _, ch, by simpa using hg, hbd⟩
        · rw [if_neg hbd] at h
          obtain ⟨h1, h2, h3⟩ := ih h
          exact ⟨h1, by omega, h3⟩
      | none =>
        simp only [hg] at h
        obtain ⟨h1, h2, h3⟩ := ih h
        exact ⟨h1, by omega, h3⟩

theorem tryDom_sound {tp : Char → Bool} {cs : List Char} {m : Nat} :
    ∀ {k0 : Nat}, tryDom tp cs k0 = some m →
      ∃ dl j, m = dl + 1 + j ∧ 1 ≤ dl ∧ dl ≤ k0 ∧ cs[dl]? = some '.' ∧
        pickTld (cs.drop (dl + 1)) ((cs.drop (dl + 1)).takeWhile tp).length = some j := by
  intro k0
  induction k0 with
  | zero => intro h; simp [tryDom] at h
  | succ k ih =>
    intro h
    rw [tryDom] at h
    by_cases hdot : cs[k + 1]? = some '.'
    · rw [if_pos hdot] at h
      cases hp : pickTld (cs.drop (k + 2)) ((cs.drop (k + 2)).takeWhile tp).length with
      | some j =>
        simp only [hp] at h
        cases h
        exact ⟨k + 1, j, rfl, by omega, Nat.le_refl _, hdot, hp⟩
      | none =>
        simp only [hp] at h
        obtain ⟨dl, j, h1, h2, h3, h4, h5⟩ := ih h
        exact ⟨dl, j, h1, h2, by omega, h4, h5⟩
    · rw [if_neg hdot] at h
      obtain ⟨dl, j, h1, h2, h3, h4, h5⟩ := ih h
      exact ⟨dl, j, h1, h2, by omega, h4, h5⟩

theorem matchEmail_sound {tp : Char → Bool} {w : Bool} {cs : List Char} {n : Nat}
    (h : matchEmail tp w cs = some n) :
    EmailShape tp (cs.take n) ∧ bdry w (cs.take n).head? = true ∧
      bdry (lastBit (cs.take n)) (cs.drop n).head? = true := by
  cases cs with
  | nil => simp [matchEmail] at h
  | cons c0 rest0 =>
    set cs := c0 :: rest0 with hcs
    rw [matchEmail] at h
    by_cases hb : bdry w (some c0) = true
    · rw [if_pos hb] at h
      by_cases hlp : localLen cs = 0
      · rw [if_pos hlp] at h; cases h
      · rw [if_neg hlp] at h
        by_cases hat : cs[localLen cs]? = some '@'
        · rw [if_pos hat] at h
          set L := localLen cs with hL
          set cs2 := cs.drop (L + 1) with hcs2
          cases ht : tryDom tp cs2 (domLen cs2) with
          | none => simp only [ht] at h; cases h
          | some m =>
            simp only [ht] at h
            cases h
            obtain ⟨dl, j, hm, hdl1, hdlle, hdot, hpick⟩ := tryDom_sound ht
            set cs3 := cs2.drop (dl + 1) with hcs3
            obtain ⟨hj2, hjle, ch, hch, hbd⟩ := pickTld_sound hpick
            -- index bookkeeping
            have hLlt : L < cs.length := by
              by_contra hcon
              rw [List.getElem?_eq_none (by omega)] at hat
              cases hat
            have hdllt : dl < cs2.length := by
              by_contra hcon
              rw [List.getElem?_eq_none (by omega)] at hdot
              cases hdot
            have hjlt : j - 1 < cs3.length := by
              by_contra hcon
              rw [List.getElem?_eq_none (by omega)] at hch
              cases hch
            -- the three slices
            have hlp_take : cs.take L = cs.takeWhile isLocalCh := by
              conv_lhs => rw [← List.takeWhile_append_dropWhile isLocalCh cs]
              rw [List.take_append_of_le_length (le_of_eq (by rw [hL, localLen]))]
              rw [hL, localLen, List.take_length]
            have hdropL : cs.drop L = '@' :: cs2 := by
              rw [List.drop_eq_getElem_cons hLlt]
              have : cs[L] = '@' := by
                have := List.getElem?_eq_getElem hLlt
                rw [hat] at this
                exact (Option.some.injEq _ _).mp this.symm
              rw [this]
            have hdropdl : cs2.drop dl = '.' :: cs3 := by
              rw [List.drop_eq_getElem_cons hdllt]
              have : cs2[dl] = '.' := by
                have := List.getElem?_eq_getElem hdllt
                rw [hdot] at this
                exact (Option.some.injEq _ _).mp this.symm
              rw [this]
            have hdec : cs.take (L + 1 + m) =
                cs.take L ++ '@' :: (cs2.take dl ++ '.' :: cs3.take j) := by
              rw [show L + 1 + m = L + (1 + m) by omega, List.take_add, hdropL]
              rw [show (1 + m) = m + 1 by omega, List.take_succ_cons]
              rw [hm, show dl + 1 + j = dl + (1 + j) by omega, List.take_add, hdropdl]
              rw [show (1 + j) = j + 1 by omega, List.take_succ_cons]
            have hshape : EmailShape tp (cs.take (L + 1 + m)) := by
              refine ⟨cs.take L, cs2.take dl, cs3.take j, hdec, ?_, ?_, ?_, ?_, ?_, ?_⟩
              · intro hnil
                have := congrArg List.length hnil
                rw [List.length_take] at this
                simp only [List.length_nil] at this
                omega
              · exact take_all_of_le_run (le_of_eq (by rw [hL, localLen]))
              · intro hnil
                have := congrArg List.length hnil
                rw [List.length_take] at this
                simp only [List.length_nil] at this
                omega
              · exact take_all_of_le_run (by rw [domLen] at hdlle; exact hdlle)
              · rw [List.length_take]
                omega
              · exact take_all_of_le_run hjle
            refine ⟨hshape, ?_, ?_⟩
            · rw [head?_take_of_pos (by omega), hcs]
              exact hb
            · have htldne : cs3.take j ≠ [] := by
                intro hcon
                have := congrArg List.length hcon
                rw [List.length_take] at this
                simp only [List.length_nil] at this
                omega
              have hlast : (cs.take (L + 1 + m)).getLast? = some ch := by
                rw [hdec]
                rw [List.getLast?_append_of_ne_nil _ (by simp)]
                rw [getLast?_cons_of_ne_nil (by simp)]
                rw [List.getLast?_append_of_ne_nil _ (by simp)]
                rw [getLast?_cons_of_ne_nil htldne]
                exact getLast?_take_of_getElem (by omega) hch
              have hdropn : cs.drop (L + 1 + m) = cs3.drop j := by
                rw [hcs3, hcs2, List.drop_drop, List.drop_drop]
                congr 1
                omega
              rw [hdropn, List.head?_drop]
              unfold lastBit
              rw [hlast]
              exact hbd
        · rw [if_neg hat] at h; cases h
    · rw [if_neg hb] at h; cases h

/-- The scan's pieces are correct throughout: kept positions admit no match,
matched slices are word-edge-bounded email shapes. -/
theorem emailScan_good (tp : Char → Bool) :
    ∀ (fuel : Nat) (w : Bool) (cs : List Char), cs.length ≤ fuel →
      ScanGood tp w (emailScan tp fuel w cs) := by
  intro fuel
  induction fuel with
  | zero =>
    intro w cs hle
    have : cs = [] := List.length_eq_zero.mp (by omega)
    subst this
    exact trivial
  | succ f ih =>
    intro w cs hle
    cases cs with
    | nil => exact trivial
    | cons c rest =>
      rw [emailScan]
      cases hm : matchEmail tp w (c :: rest) with
      | some n =>
        obtain ⟨hn1, hn2⟩ := matchEmail_bound hm
        have hfl : (((emailScan tp f (lastBit ((c :: rest).take n))
            ((c :: rest).drop n)).map origP).flatten) = (c :: rest).drop n :=
          emailScan_orig tp f _ _ (by
            rw [List.length_drop]
            simp only [List.length_cons] at hle ⊢
            omega)
        obtain ⟨hs1, hs2, hs3⟩ := matchEmail_sound hm
        refine ⟨hs1, ?_, ?_, ?_⟩
        · exact hs2
        · rw [hfl]
          exact hs3
        · exact ih _ _ (by
            rw [List.length_drop]
            simp only [List.length_cons] at hle ⊢
            omega)
      | none =>
        have hfl : (((emailScan tp f (isWordCh c) rest).map origP).flatten) = rest :=
          emailScan_orig tp f _ _ (by simp only [List.length_cons] at hle; omega)
        refine ⟨?_, ?_⟩
        · rw [hfl]
          exact hm
        · exact ih _ _ (by simp only [List.length_cons] at hle; omega)

/-- Claim C1 (amended): redaction decomposes the input into kept characters
and matched slices — the pieces reassemble to the input, the output renders
each matched slice as the marker (so the marker count equals the match
count), and the scan is correct: every matched slice is a word-edge-bounded
email shape whose tld class is "letters or `|`" (the source's `[A-Z|a-z]`),
and no kept position admits a match. -/
theorem redact_emails_matches_spec (s : String) :
    ((emailScan isTldCh s.data.length false s.data).map origP).flatten = s.data ∧
    (redact_emails s).data =
      ((emailScan isTldCh s.data.length false s.data).map renderP).flatten ∧
    ScanGood isTldCh false (emailScan isTldCh s.data.length false s.data) :=
  ⟨emailScan_orig isTldCh s.data.length false s.data (Nat.le_refl _),
   by simp only [redact_emails, redactL],
   emailScan_good isTldCh s.data.length false s.data (Nat.le_refl _)⟩

/-- Counterexample to claim C1 as stated: the source's tld class `[A-Z|a-z]`
contains the literal `|`, so the code redacts `a@b.ab|cd` whole, while the
claim's letters-only tld would stop at the `|` and leave `|cd` in place. -/
theorem redact_emails_tld_bar_cex :
    redact_emails "a@b.ab|cd" = "[redacted-email]" ∧
    redactEmailsClaimed "a@b.ab|cd" = "[redacted-email]|cd" ∧
    redact_emails "a@b.ab|cd" ≠ redactEmailsClaimed "a@b.ab|cd" := by
  refine ⟨by decide, by decide, by decide⟩

/-! ## Claim C9: sanitized output is a fixpoint of redaction.
First: completeness of the backtracking matcher against the declarative
match predicate. -/

theorem takeWhile_append_run {p : Char → Bool} {A : List Char} {c : Char} {R : List Char}
    (hA : ∀ x ∈ A, p x = true) (hc : p c = false) :
    (A ++ c :: R).takeWhile p = A := by
  induction A with
  | nil => simp [List.takeWhile_cons, hc]
  | cons a A2 ih =>
    rw [List.cons_append, List.takeWhile_cons, hA a (by simp)]
    simp only [if_true]
    rw [ih fun x hx => hA x (by simp [hx])]

theorem takeWhile_append_all {p : Char → Bool} {A X : List Char}
    (hA : ∀ x ∈ A, p x = true) :
    (A ++ X).takeWhile p = A ++ X.takeWhile p := by
  induction A with
  | nil => simp
  | cons a A2 ih =>
    rw [List.cons_append, List.takeWhile_cons, hA a (by simp)]
    simp only [if_true, List.cons_append]
    rw [ih fun x hx => hA x (by simp [hx])]

theorem drop_append_cons (A : List Char) (c : Char) (Y : List Char) :
    (A ++ c :: Y).drop (A.length + 1) = Y := by
  induction A with
  | nil => rfl
  | cons a A2 ih => simp

theorem getElem?_append_mid (A : List Char) (c : Char) (Y : List Char) :
    (A ++ c :: Y)[A.length]? = some c := by
  rw [List.getElem?_append_right (Nat.le_refl _)]
  simp

theorem append_eq_of_not_mem {A B C D : List Char} {d : Char}
    (h : A ++ B = C ++ d :: D) (hd : d ∉ A) : A.length ≤ C.length := by
  by_contra hlt
  push_neg at hlt
  have h1 : (A ++ B)[C.length]? = A[C.length]? := List.getElem?_append_left hlt
  rw [h, getElem?_append_mid] at h1
  exact hd (List.getElem?_mem h1.symm)

theorem emailShape_ne_nil {tp : Char → Bool} {m : List Char} (h : EmailShape tp m) :
    m ≠ [] := by
  obtain ⟨lp, dom, tld, hm, hlpne, -⟩ := h
  subst hm
  cases lp with
  | nil => exact absurd rfl hlpne
  | cons a l => simp

theorem emailShape_at_mem {tp : Char → Bool} {m : List Char} (h : EmailShape tp m) :
    '@' ∈ m := by
  obtain ⟨lp, dom, tld, hm, -⟩ := h
  subst hm
  simp

theorem emailShape_mem_class {tp : Char → Bool} {m : List Char} (h : EmailShape tp m) :
    ∀ x ∈ m, isLocalCh x = true ∨ x = '@' ∨ isDomainCh x = true ∨ x = '.' ∨ tp x = true := by
  obtain ⟨lp, dom, tld, hm, -, hlp, -, hdom, -, htld⟩ := h
  subst hm
  intro x hx
  simp only [List.mem_append, List.mem_cons] at hx
  rcases hx with h | h | h | h | h
  · exact Or.inl (hlp x h)
  · exact Or.inr (Or.inl h)
  · exact Or.inr (Or.inr (Or.inl (hdom x h)))
  · exact Or.inr (Or.inr (Or.inr (Or.inl h)))
  · exact Or.inr (Or.inr (Or.inr (Or.inr (htld x h))))

theorem emailShape_getLast {tp : Char → Bool} {m : List Char} (h : EmailShape tp m) :
    ∃ lc, m.getLast? = some lc ∧ tp lc = true := by
  obtain ⟨lp, dom, tld, hm, -, -, -, -, htld2, htld⟩ := h
  subst hm
  have htne : tld ≠ [] := by
    intro h0
    rw [h0] at htld2
    simp at htld2
  obtain ⟨lc, hlc⟩ : ∃ lc, tld.getLast? = some lc := by
    cases hg : tld.getLast? with
    | some lc => exact ⟨lc, rfl⟩
    | none => exact absurd (List.getLast?_eq_none_iff.mp hg) htne
  refine ⟨lc, ?_, htld lc (List.mem_of_mem_getLast? hlc)⟩
  rw [List.getLast?_append_of_ne_nil _ (by simp)]
  rw [getLast?_cons_of_ne_nil (by simp)]
  rw [List.getLast?_append_of_ne_nil _ (by simp)]
  rw [getLast?_cons_of_ne_nil htne]
  exact hlc

theorem pickTld_complete {cs : List Char} {j0 : Nat} {ch0 : Char}
    (hj2 : 2 ≤ j0) (hch : cs[j0 - 1]? = some ch0)
    (hbd : bdry (isWordCh ch0) cs[j0]? = true) :
    ∀ {b : Nat}, j0 ≤ b → ∃ j, pickTld cs b = some j := by
  intro b
  induction b with
  | zero => intro hb; omega
  | succ b2 ih =>
    intro hb
    rw [pickTld]
    rw [if_neg (by omega)]
    cases hg : cs[b2]? with
    | some c =>
      by_cases hbd2 : bdry (isWordCh c) cs[b2 + 1]? = true
      · refine ⟨b2 + 1, ?_⟩
        show (if bdry (isWordCh c) cs[b2 + 1]? = true then some (b2 + 1)
          else pickTld cs b2) = some (b2 + 1)
        rw [if_pos hbd2]
      · by_cases hj : j0 = b2 + 1
        · exfalso
          subst hj
          simp only [Nat.add_sub_cancel] at hch
          rw [hg] at hch
          cases hch
          exact hbd2 hbd
        · obtain ⟨j, hj2b⟩ := ih (by omega)
          refine ⟨j, ?_⟩
          show (if bdry (isWordCh c) cs[b2 + 1]? = true then some (b2 + 1)
            else pickTld cs b2) = some j
          rw [if_neg hbd2]
          exact hj2b
    | none =>
      by_cases hj : j0 = b2 + 1
      · exfalso
        subst hj
        simp only [Nat.add_sub_cancel] at hch
        rw [hg] at hch
        cases hch
      · obtain ⟨j, hj2b⟩ := ih (by omega)
        exact ⟨j, hj2b⟩

theorem tryDom_complete {tp : Char → Bool} {cs : List Char} {k : Nat}
    (hk1 : 1 ≤ k) (hdot : cs[k]? = some '.')
    (hpick : pickTld (cs.drop (k + 1)) ((cs.drop (k + 1)).takeWhile tp).length ≠ none) :
    ∀ {k0 : Nat}, k ≤ k0 → ∃ m, tryDom tp cs k0 = some m := by
  intro k0
  induction k0 with
  | zero => intro hk0; omega
  | succ k2 ih =>
    intro hk0
    rw [tryDom]
    by_cases hd : cs[k2 + 1]? = some '.'
    · rw [if_pos hd]
      cases hp : pickTld (cs.drop (k2 + 2)) ((cs.drop (k2 + 2)).takeWhile tp).length with
      | some j => exact ⟨k2 + 1 + 1 + j, rfl⟩
      | none =>
        by_cases hk : k = k2 + 1
        · exfalso
          subst hk
          exact hpick hp
        · obtain ⟨m, hmeq⟩ := ih (by omega)
          exact ⟨m, hmeq⟩
    · rw [if_neg hd]
      by_cases hk : k = k2 + 1
      · exfalso
        subst hk
        exact hd hdot
      · exact ih (by omega)

theorem matchEmail_of_parts {tp : Char → Bool} {w : Bool} {cs : List Char} {mm : Nat}
    (hne : cs ≠ []) (hb : bdry w cs.head? = true) (hll : localLen cs ≠ 0)
    (hat : cs[localLen cs]? = some '@')
    (htd : tryDom tp (cs.drop (localLen cs + 1)) (domLen (cs.drop (localLen cs + 1))) = some mm) :
    matchEmail tp w cs = some (localLen cs + 1 + mm) := by
  cases cs with
  | nil => exact absurd rfl hne
  | cons c r =>
    rw [matchEmail]
    rw [if_pos (by simpa using hb)]
    rw [if_neg hll]
    rw [if_pos hat]
    rw [htd]

theorem matchEmail_complete {tp : Char → Bool} {w : Bool} {l : List Char}
    (h : DeclEm tp w l) : ∃ n, matchEmail tp w l = some n := by
  obtain ⟨m, rest, hdec, hsh, hstart, hend⟩ := h
  obtain ⟨lp, dom, tld, hm, hlpne, hlp, hdomne, hdom, htld2, htld⟩ := hsh
  subst hm
  subst hdec
  have hl : (lp ++ '@' :: (dom ++ '.' :: tld)) ++ rest
      = lp ++ '@' :: (dom ++ '.' :: (tld ++ rest)) := by
    simp [List.append_assoc]
  rw [hl]
  obtain ⟨a, lp2, rfl⟩ : ∃ a lp2, lp = a :: lp2 := by
    cases lp with
    | nil => exact absurd rfl hlpne
    | cons a lp2 => exact ⟨a, lp2, rfl⟩
  set Y := dom ++ '.' :: (tld ++ rest) with hY
  set cs := (a :: lp2) ++ '@' :: Y with hcs
  -- the maximal local run is exactly the local part
  have htw : cs.takeWhile isLocalCh = a :: lp2 :=
    takeWhile_append_run hlp (by decide)
  have hL : localLen cs = lp2.length + 1 := by
    rw [localLen, htw]
    simp
  -- the `@` after it
  have hat : cs[localLen cs]? = some '@' := by
    rw [hL]
    have h1 : lp2.length + 1 = (a :: lp2).length := by simp
    rw [h1, hcs, getElem?_append_mid]
  have hdropcs : cs.drop (localLen cs + 1) = Y := by
    rw [hL]
    have h1 : lp2.length + 1 + 1 = (a :: lp2).length + 1 := by simp
    rw [h1, hcs, drop_append_cons]
  -- the domain candidate
  have hdl : 1 ≤ dom.length := by
    cases dom with
    | nil => exact absurd rfl hdomne
    | cons _ _ => simp
  have hdot : Y[dom.length]? = some '.' := getElem?_append_mid dom '.' (tld ++ rest)
  have hkle : dom.length ≤ domLen Y := by
    rw [domLen, hY, takeWhile_append_all hdom]
    simp
  have hYd : Y.drop (dom.length + 1) = tld ++ rest := drop_append_cons dom '.' (tld ++ rest)
  -- the tld candidate
  have htne : tld ≠ [] := by
    intro h0
    rw [h0] at htld2
    simp at htld2
  obtain ⟨ch0, hch0⟩ : ∃ ch0, tld.getLast? = some ch0 := by
    cases hg : tld.getLast? with
    | some ch0 => exact ⟨ch0, rfl⟩
    | none => exact absurd (List.getLast?_eq_none_iff.mp hg) htne
  have hchY : (tld ++ rest)[tld.length - 1]? = some ch0 := by
    rw [List.getElem?_append_left (by omega)]
    rw [← List.getLast?_eq_getElem?]
    exact hch0
  have hlastm : ((a :: lp2) ++ '@' :: (dom ++ '.' :: tld)).getLast? = some ch0 := by
    rw [List.getLast?_append_of_ne_nil _ (by simp)]
    rw [getLast?_cons_of_ne_nil (by simp)]
    rw [List.getLast?_append_of_ne_nil _ (by simp)]
    rw [getLast?_cons_of_ne_nil htne]
    exact hch0
  have hbdY : bdry (isWordCh ch0) (tld ++ rest)[tld.length]? = true := by
    have h1 : (tld ++ rest)[tld.length]? = rest[tld.length - tld.length]? :=
      List.getElem?_append_right (Nat.le_refl _)
    rw [h1, Nat.sub_self]
    have h2 : rest[0]? = rest.head? := (List.head?_eq_getElem? rest).symm
    rw [h2]
    have h3 : lastBit ((a :: lp2) ++ '@' :: (dom ++ '.' :: tld)) = isWordCh ch0 := by
      rw [lastBit, hlastm]
      rfl
    rw [← h3]
    exact hend
  have hjb : tld.length ≤ ((Y.drop (dom.length + 1)).takeWhile tp).length := by
    rw [hYd, takeWhile_append_all htld]
    simp
  have hch2 : (Y.drop (dom.length + 1))[tld.length - 1]? = some ch0 := by
    rw [hYd]
    exact hchY
  have hbd2 : bdry (isWordCh ch0) (Y.drop (dom.length + 1))[tld.length]? = true := by
    rw [hYd]
    exact hbdY
  obtain ⟨j, hj⟩ := pickTld_complete htld2 hch2 hbd2 hjb
  obtain ⟨mm, hmm⟩ := tryDom_complete hdl hdot (by rw [hj]; simp) hkle
  refine ⟨localLen cs + 1 + mm, ?_⟩
  refine matchEmail_of_parts (by simp [hcs]) ?_ (by rw [hL]; omega) hat ?_
  · -- start boundary transfers from the shape's head
    have h1 : ((a :: lp2) ++ '@' :: (dom ++ '.' :: tld)).head? = some a := by simp
    rw [h1] at hstart
    simpa [hcs] using hstart
  · rw [hdropcs]
    exact hmm

theorem declEm_of_some {tp : Char → Bool} {w : Bool} {l : List Char} {n : Nat}
    (h : matchEmail tp w l = some n) : DeclEm tp w l := by
  obtain ⟨hsh, hst, hen⟩ := matchEmail_sound h
  exact ⟨l.take n, l.drop n, (List.take_append_drop n l).symm, hsh, hst, hen⟩

theorem matchEmail_none_iff {tp : Char → Bool} {w : Bool} {l : List Char} :
    matchEmail tp w l = none ↔ ¬ DeclEm tp w l := by
  constructor
  · intro h hd
    obtain ⟨n, hn⟩ := matchEmail_complete hd
    rw [h] at hn
    cases hn
  · intro h
    cases hm : matchEmail tp w l with
    | none => rfl
    | some n => exact absurd (declEm_of_some hm) h

/-! ### Structure of a scan's pieces around its first matched slice -/

theorem keptPre_renderDecomp : ∀ P : List RPiece,
    (P.map renderP).flatten = keptPre P ++ ((afterPre P).map renderP).flatten := by
  intro P
  induction P with
  | nil => rfl
  | cons p ps ih =>
    cases p with
    | keep c =>
      simp only [List.map_cons, List.flatten_cons, renderP, keptPre, afterPre,
        List.singleton_append, List.cons_append]
      rw [ih, List.nil_append]
    | email m => rfl

theorem keptPre_origDecomp : ∀ P : List RPiece,
    (P.map origP).flatten = keptPre P ++ ((afterPre P).map origP).flatten := by
  intro P
  induction P with
  | nil => rfl
  | cons p ps ih =>
    cases p with
    | keep c =>
      simp only [List.map_cons, List.flatten_cons, origP, keptPre, afterPre,
        List.singleton_append, List.cons_append]
      rw [ih, List.nil_append]
    | email m => rfl

theorem afterPre_cases : ∀ P : List RPiece,
    afterPre P = [] ∨ ∃ m ps, afterPre P = RPiece.email m :: ps := by
  intro P
  induction P with
  | nil => exact Or.inl rfl
  | cons p ps ih =>
    cases p with
    | keep c => simpa only [afterPre] using ih
    | email m => exact Or.inr ⟨m, ps, rfl⟩

theorem lastBitD_cons (w : Bool) (c : Char) (l : List Char) :
    lastBitD w (c :: l) = lastBitD (isWordCh c) l := by
  cases l with
  | nil => rfl
  | cons d l2 =>
    have h1 : (c :: d :: l2).getLast? = (d :: l2).getLast? := getLast?_cons_of_ne_nil (by simp)
    cases hg : (d :: l2).getLast? with
    | none => exact absurd (List.getLast?_eq_none_iff.mp hg) (by simp)
    | some e => simp [lastBitD, h1, hg]

theorem lastBit_cons_eq (c : Char) (l : List Char) :
    lastBit (c :: l) = lastBitD (isWordCh c) l := by
  cases l with
  | nil => rfl
  | cons d l2 =>
    rw [lastBit, getLast?_cons_of_ne_nil (by simp)]
    cases hg : (d :: l2).getLast? with
    | none => exact absurd (List.getLast?_eq_none_iff.mp hg) (by simp)
    | some e => simp [lastBitD, wordAt, hg]

theorem scanGood_first {tp : Char → Bool} :
    ∀ {P : List RPiece} {w0 : Bool} {m : List Char} {ps : List RPiece},
      ScanGood tp w0 P → afterPre P = RPiece.email m :: ps →
      EmailShape tp m ∧ bdry (lastBitD w0 (keptPre P)) m.head? = true := by
  intro P
  induction P with
  | nil =>
    intro w0 m ps _ ha
    simp [afterPre] at ha
  | cons p ps2 ih =>
    intro w0 m ps hg ha
    cases p with
    | keep c =>
      simp only [afterPre] at ha
      obtain ⟨-, hg2⟩ := hg
      obtain ⟨h1, h2⟩ := ih hg2 ha
      refine ⟨h1, ?_⟩
      simp only [keptPre]
      rw [lastBitD_cons]
      exact h2
    | email m2 =>
      simp only [afterPre] at ha
      obtain ⟨hm2, hps⟩ : RPiece.email m2 = RPiece.email m ∧ ps2 = ps := by
        exact ⟨congrArg (fun l => l.headD (RPiece.email m2)) ha, by
          have := congrArg List.tail ha
          simpa using this⟩
      obtain ⟨hsh, hbd, -, -⟩ := hg
      cases hm2
      exact ⟨hsh, hbd⟩

/-! ### No email match can start inside or at the replacement marker -/

theorem matchEmail_none_of_head {tp : Char → Bool} {b : Bool} {l : List Char}
    (h : ∀ c, l.head? = some c → isLocalCh c = false) : matchEmail tp b l = none := by
  cases l with
  | nil => rfl
  | cons c r =>
    have hc : isLocalCh c = false := h c rfl
    rw [matchEmail]
    by_cases hb : bdry b (some c) = true
    · rw [if_pos hb]
      have hll : localLen (c :: r) = 0 := by
        simp [localLen, List.takeWhile_cons, hc]
      rw [if_pos hll]
    · rw [if_neg hb]

theorem matchEmail_stop {tp : Char → Bool} {b : Bool} {a : Char} {A R : List Char} {c0 : Char}
    (hA : ∀ x ∈ a :: A, isLocalCh x = true) (hc : isLocalCh c0 = false) (hc2 : c0 ≠ '@') :
    matchEmail tp b ((a :: A) ++ c0 :: R) = none := by
  rw [List.cons_append, matchEmail]
  by_cases hb : bdry b (some a) = true
  · rw [if_pos hb]
    have htw : (a :: (A ++ c0 :: R)).takeWhile isLocalCh = a :: A := by
      rw [← List.cons_append]
      exact takeWhile_append_run hA hc
    have hL : localLen (a :: (A ++ c0 :: R)) = A.length + 1 := by
      rw [localLen, htw]
      simp
    rw [if_neg (by simp [hL])]
    have hat : (a :: (A ++ c0 :: R))[localLen (a :: (A ++ c0 :: R))]? ≠ some '@' := by
      rw [hL]
      have h1 : (a :: (A ++ c0 :: R))[A.length + 1]? = (A ++ c0 :: R)[A.length]? := by
        simp
      rw [h1, getElem?_append_mid]
      intro hcon
      have : c0 = '@' := by simpa using hcon
      exact hc2 this
    rw [if_neg hat]
  · rw [if_neg hb]

theorem noEm_run_close {tp : Char → Bool} {R : List Char} (hR : NoEm tp false R) :
    ∀ (A : List Char), (∀ x ∈ A, isLocalCh x = true) → ∀ (b : Bool),
      NoEm tp b (A ++ ']' :: R) := by
  intro A
  induction A with
  | nil =>
    intro _ b
    simp only [List.nil_append]
    refine ⟨matchEmail_none_of_head ?_, ?_⟩
    · intro c hc
      simp only [List.head?_cons] at hc
      cases hc
      decide
    · rw [show isWordCh ']' = false from by decide]
      exact hR
  | cons a A2 ih =>
    intro hA b
    rw [List.cons_append]
    refine ⟨?_, ?_⟩
    · rw [← List.cons_append]
      exact matchEmail_stop hA (by decide) (by decide)
    · exact ih (fun x hx => hA x (List.mem_cons_of_mem a hx)) (isWordCh a)

theorem noEm_marker {tp : Char → Bool} {R : List Char} (hR : NoEm tp false R) (b : Bool) :
    NoEm tp b (markerL ++ R) := by
  have hmk : markerL ++ R = '[' :: (midM ++ ']' :: R) := by
    rw [show markerL = '[' :: (midM ++ [']']) from by decide]
    simp [List.append_assoc]
  rw [hmk]
  refine ⟨matchEmail_none_of_head ?_, ?_⟩
  · intro c hc
    simp only [List.head?_cons] at hc
    cases hc
    decide
  · exact noEm_run_close hR midM (by decide) (isWordCh '[')

/-! ### No-match is preserved by cutting at a non-word edge, removing
whitespace in front, and appending a terminal punctuation character -/

theorem declEm_append_drop {tp : Char → Bool} {w : Bool} {y z : List Char}
    (hz : wordAt z.head? = false) (h : DeclEm tp w y) : DeclEm tp w (y ++ z) := by
  obtain ⟨m, r, hdec, hsh, hst, hen⟩ := h
  refine ⟨m, r ++ z, by rw [hdec, List.append_assoc], hsh, hst, ?_⟩
  cases r with
  | nil =>
    simp only [List.nil_append]
    simp only [bdry, List.head?_nil] at hen ⊢
    rw [hz]
    exact hen
  | cons r0 rs => simpa using hen

theorem noEm_append_left {tp : Char → Bool} {z : List Char} (hz : wordAt z.head? = false) :
    ∀ {y : List Char} {b : Bool}, NoEm tp b (y ++ z) → NoEm tp b y := by
  intro y
  induction y with
  | nil => intro b _; exact trivial
  | cons c y2 ih =>
    intro b h
    rw [List.cons_append] at h
    obtain ⟨h1, h2⟩ := h
    refine ⟨?_, ih h2⟩
    cases hm : matchEmail tp b (c :: y2) with
    | none => rfl
    | some n =>
      exfalso
      have hd2 : DeclEm tp b ((c :: y2) ++ z) := declEm_append_drop hz (declEm_of_some hm)
      obtain ⟨n2, hn2⟩ := matchEmail_complete hd2
      rw [List.cons_append, h1] at hn2
      cases hn2

theorem isWordCh_of_space {c : Char} (h : isPySpace c = true) : isWordCh c = false := by
  have hc : ((((c = ' ' ∨ c = '\t') ∨ c = '\n') ∨ c = '\r') ∨ c = '\x0b') ∨ c = '\x0c' := by
    simpa [isPySpace] using h
  rcases hc with ((((rfl | rfl) | rfl) | rfl) | rfl) | rfl <;> decide

theorem wordAt_head_of_spaces {t : List Char} (ht : ∀ c ∈ t, isPySpace c = true) :
    wordAt t.head? = false := by
  cases t with
  | nil => rfl
  | cons c r =>
    simp only [List.head?_cons]
    exact isWordCh_of_space (ht c (by simp))

theorem noEm_space_left {tp : Char → Bool} :
    ∀ {p : List Char} {y : List Char}, (∀ x ∈ p, isPySpace x = true) →
      NoEm tp false (p ++ y) → NoEm tp false y := by
  intro p
  induction p with
  | nil => intro y _ h; exact h
  | cons s p2 ih =>
    intro y hp h
    rw [List.cons_append] at h
    obtain ⟨-, h2⟩ := h
    rw [isWordCh_of_space (hp s (by simp))] at h2
    exact ih (fun x hx => hp x (by simp [hx])) h2

theorem not_declEm_singleton {tp : Char → Bool} {b : Bool} {c0 : Char} (hc : c0 ≠ '@') :
    ¬ DeclEm tp b [c0] := by
  rintro ⟨m, r, hdec, hsh, -, -⟩
  have hat : '@' ∈ m ++ r := List.mem_append_left r (emailShape_at_mem hsh)
  rw [← hdec] at hat
  simp only [List.mem_singleton] at hat
  exact hc hat.symm

theorem declEm_of_snoc {tp : Char → Bool} {w : Bool} {y : List Char} {c0 : Char}
    (hw : isWordCh c0 = false) (ht : tp c0 = false)
    (h : DeclEm tp w (y ++ [c0])) : DeclEm tp w y := by
  obtain ⟨m, r, hdec, hsh, hst, hen⟩ := h
  rcases List.eq_nil_or_concat' r with hr | ⟨r2, d, hr⟩
  · -- the match would have to end in `c0`, which is not a tld character
    exfalso
    subst hr
    rw [List.append_nil] at hdec
    obtain ⟨lc, hlc, hlct⟩ := emailShape_getLast hsh
    rw [← hdec, List.getLast?_append_of_ne_nil _ (by simp)] at hlc
    simp only [List.getLast?_singleton] at hlc
    cases hlc
    rw [ht] at hlct
    cases hlct
  · subst hr
    have hdec2 : y ++ [c0] = (m ++ r2) ++ [d] := by
      rw [hdec, List.append_assoc]
    obtain ⟨hy, hcd⟩ := List.append_inj' hdec2 rfl
    have hd : d = c0 := by simpa using hcd.symm
    subst hd
    refine ⟨m, r2, hy, hsh, hst, ?_⟩
    cases r2 with
    | nil =>
      simp only [List.nil_append, List.head?_cons] at hen
      simp only [List.head?_nil]
      simp only [bdry, wordAt] at hen ⊢
      rw [hw] at hen
      exact hen
    | cons e r3 => simpa using hen

theorem noEm_snoc {tp : Char → Bool} {c0 : Char} (hw : isWordCh c0 = false)
    (ht : tp c0 = false) (ha : c0 ≠ '@') :
    ∀ {y : List Char} {b : Bool}, NoEm tp b y → NoEm tp b (y ++ [c0]) := by
  intro y
  induction y with
  | nil =>
    intro b _
    simp only [List.nil_append]
    refine ⟨?_, trivial⟩
    cases hm : matchEmail tp b [c0] with
    | none => rfl
    | some n => exact absurd (declEm_of_some hm) (not_declEm_singleton ha)
  | cons c y2 ih =>
    intro b h
    obtain ⟨h1, h2⟩ := h
    rw [List.cons_append]
    refine ⟨?_, ih h2⟩
    cases hm : matchEmail tp b (c :: (y2 ++ [c0])) with
    | none => rfl
    | some n =>
      exfalso
      have hd : DeclEm tp b ((c :: y2) ++ [c0]) := by
        rw [List.cons_append]
        exact declEm_of_some hm
      obtain ⟨n2, hn2⟩ := matchEmail_complete (declEm_of_snoc hw ht hd)
      rw [h1] at hn2
      cases hn2

/-- After redaction no position of the rendered text admits an email match:
matches cannot contain the marker's `[`, so a rendered match would lie in a
kept region and transfer to the original text, where the scan found none.
`w` is the original predecessor word-bit, `w2` the rendered one; they agree
except right after a replacement whose slice ended in a word character, and
then the following original character is non-word. -/
theorem emailScan_render_noEm :
    ∀ (fuel : Nat) (w w2 : Bool) (cs : List Char), cs.length ≤ fuel →
      (w2 = w ∨ (w2 = false ∧ w = true ∧ wordAt cs.head? = false)) →
      NoEm isTldCh w2 (((emailScan isTldCh fuel w cs).map renderP).flatten) := by
  intro fuel
  induction fuel with
  | zero =>
    intro w w2 cs hle _
    have hnil : cs = [] := List.length_eq_zero.mp (by omega)
    subst hnil
    exact trivial
  | succ f ih =>
    intro w w2 cs hle hR
    cases cs with
    | nil => exact trivial
    | cons c rest =>
      have hlen2 : rest.length ≤ f := by
        simp only [List.length_cons] at hle
        omega
      rw [emailScan]
      cases hm : matchEmail isTldCh w (c :: rest) with
      | some n =>
        obtain ⟨hn1, hn2⟩ := matchEmail_bound hm
        simp only [List.map_cons, List.flatten_cons, renderP]
        refine noEm_marker ?_ w2
        obtain ⟨-, -, hen⟩ := matchEmail_sound hm
        refine ih (lastBit ((c :: rest).take n)) false ((c :: rest).drop n) ?_ ?_
        · rw [List.length_drop]
          simp only [List.length_cons] at hle ⊢
          omega
        · cases hlb : lastBit ((c :: rest).take n) with
          | false => exact Or.inl rfl
          | true =>
            refine Or.inr ⟨rfl, rfl, ?_⟩
            rw [hlb] at hen
            cases hwa : wordAt ((c :: rest).drop n).head? with
            | false => rfl
            | true =>
              simp only [bdry] at hen
              rw [hwa] at hen
              simp at hen
      | none =>
        simp only [List.map_cons, List.flatten_cons, renderP, List.singleton_append]
        refine ⟨?_, ih (isWordCh c) (isWordCh c) rest hlen2 (Or.inl rfl)⟩
        cases hm2 : matchEmail isTldCh w2
            (c :: ((emailScan isTldCh f (isWordCh c) rest).map renderP).flatten) with
        | none => rfl
        | some n2 =>
          exfalso
          set P2 := emailScan isTldCh f (isWordCh c) rest with hP2
          set R2 := (P2.map renderP).flatten with hR2
          have hgood : ScanGood isTldCh (isWordCh c) P2 :=
            emailScan_good isTldCh f (isWordCh c) rest hlen2
          have horig : (P2.map origP).flatten = rest :=
            emailScan_orig isTldCh f (isWordCh c) rest hlen2
          obtain ⟨hsh2, hst2, hen2⟩ := matchEmail_sound hm2
          obtain ⟨hn21, hn22⟩ := matchEmail_bound hm2
          have hwc : bdry w2 (some c) = true := by
            have h0 := hst2
            rw [head?_take_of_pos hn21] at h0
            simpa using h0
          have hww : w2 = w := by
            rcases hR with h0 | ⟨h01, h02, h03⟩
            · exact h0
            · exfalso
              simp only [List.head?_cons] at h03
              rw [h01] at hwc
              simp only [bdry, wordAt] at hwc h03
              rw [h03] at hwc
              cases hwc
          subst hww
          rcases afterPre_cases P2 with hap | ⟨m2, ps2, hap⟩
          · have hrd := keptPre_renderDecomp P2
            have hod := keptPre_origDecomp P2
            rw [hap] at hrd hod
            simp only [List.map_nil, List.flatten_nil, List.append_nil] at hrd hod
            have hkr : keptPre P2 = rest := by
              rw [← hod]
              exact horig
            have hRr : R2 = rest := by rw [hR2, hrd, hkr]
            rw [hRr, hm] at hm2
            cases hm2
          · set K := keptPre P2 with hK
            have hrd := keptPre_renderDecomp P2
            have hod := keptPre_origDecomp P2
            rw [hap] at hrd hod
            simp only [List.map_cons, List.flatten_cons, renderP, origP] at hrd hod
            set R3 := (ps2.map renderP).flatten with hR3
            set O3 := (ps2.map origP).flatten with hO3
            have hcrest : c :: rest = (c :: K) ++ (m2 ++ O3) := by
              rw [← horig, hod]
              simp [List.cons_append]
            have hcR : c :: R2 = (c :: K) ++ '[' :: (midM ++ ']' :: R3) := by
              rw [hR2, hrd]
              rw [show markerL = '[' :: (midM ++ [']']) from by decide]
              simp [List.append_assoc]
            set E := (c :: R2).take n2 with hE
            have hsplit : E ++ (c :: R2).drop n2 = c :: R2 :=
              List.take_append_drop n2 (c :: R2)
            have hnotbr : '[' ∉ E := by
              intro hmem
              rcases emailShape_mem_class hsh2 '[' hmem with h0 | h0 | h0 | h0 | h0
              · exact absurd h0 (by decide)
              · exact absurd h0 (by decide)
              · exact absurd h0 (by decide)
              · exact absurd h0 (by decide)
              · exact absurd h0 (by decide)
            have hlenE : E.length ≤ (c :: K).length :=
              append_eq_of_not_mem (hsplit.trans hcR) hnotbr
            have hEpre : E = (c :: K).take E.length := by
              have h1 : E = (E ++ (c :: R2).drop n2).take E.length :=
                (List.take_left _ _).symm
              rw [hsplit, hcR, List.take_append_of_le_length hlenE] at h1
              exact h1
            have hElen : E.length = n2 := by
              rw [hE, List.length_take]
              exact Nat.min_eq_left hn22
            have hrestR : (c :: R2).drop n2
                = (c :: K).drop E.length ++ '[' :: (midM ++ ']' :: R3) := by
              conv_lhs => rw [hcR]
              rw [← hElen, List.drop_append_of_le_length hlenE]
            have horigsplit : c :: rest = E ++ ((c :: K).drop E.length ++ (m2 ++ O3)) := by
              rw [hcrest]
              conv_lhs => rw [← List.take_append_drop E.length (c :: K)]
              rw [← hEpre, List.append_assoc]
            have hdecl : DeclEm isTldCh w2 (c :: rest) := by
              refine ⟨E, (c :: K).drop E.length ++ (m2 ++ O3), horigsplit, hsh2, hst2, ?_⟩
              by_cases hKd : (c :: K).drop E.length = []
              · obtain ⟨hshm2, hbdm2⟩ := scanGood_first hgood hap
                have hEeq : E = c :: K := by
                  have hge : (c :: K).length ≤ E.length := List.drop_eq_nil_iff.mp hKd
                  have hEl : E.length = (c :: K).length := Nat.le_antisymm hlenE hge
                  rw [hEpre, hEl, List.take_length]
                rw [hKd, List.nil_append]
                rw [List.head?_append_of_ne_nil _ (emailShape_ne_nil hshm2)]
                rw [show lastBit E = lastBitD (isWordCh c) K from by
                  rw [hEeq]; exact lastBit_cons_eq c K]
                exact hbdm2
              · obtain ⟨d, ds, hd⟩ : ∃ d ds, (c :: K).drop E.length = d :: ds := by
                  cases hdd : (c :: K).drop E.length with
                  | nil => exact absurd hdd hKd
                  | cons d ds => exact ⟨d, ds, rfl⟩
                rw [hrestR, hd] at hen2
                rw [hd]
                simpa using hen2
            obtain ⟨n3, hn3⟩ := matchEmail_complete hdecl
            rw [hm] at hn3
            cases hn3

/-! ### When nothing matches, redaction keeps every character -/

theorem emailScan_keep_all {tp : Char → Bool} :
    ∀ (fuel : Nat) (w : Bool) (cs : List Char), cs.length ≤ fuel → NoEm tp w cs →
      ((emailScan tp fuel w cs).map renderP).flatten = cs := by
  intro fuel
  induction fuel with
  | zero =>
    intro w cs hle _
    have hnil : cs = [] := List.length_eq_zero.mp (by omega)
    subst hnil
    rfl
  | succ f ih =>
    intro w cs hle hno
    cases cs with
    | nil => rfl
    | cons c rest =>
      obtain ⟨h1, h2⟩ := hno
      rw [emailScan, h1]
      simp only [List.map_cons, List.flatten_cons, renderP, List.singleton_append]
      rw [ih (isWordCh c) rest (by simp only [List.length_cons] at hle; omega) h2]

theorem redactL_eq_self_of_noEm {tp : Char → Bool} {cs : List Char}
    (h : NoEm tp false cs) : redactL tp cs = cs := by
  rw [redactL]
  exact emailScan_keep_all cs.length false cs (Nat.le_refl _) h

/-! ### The signature-removal stages only cut at non-word edges -/

theorem isWordCh_of_punct {c : Char} (h : isPunctCh c = true) : isWordCh c = false := by
  have hc : (c = '.' ∨ c = '!') ∨ c = '?' := by
    simpa [isPunctCh] using h
  rcases hc with (rfl | rfl) | rfl <;> decide

theorem wsKwTail_head_space {strict : Bool} {l : List Char} (h : wsKwTail strict l = true) :
    ∃ c rest, l = c :: rest ∧ isPySpace c = true := by
  cases l with
  | nil => simp [wsKwTail] at h
  | cons c rest =>
    rw [wsKwTail, Bool.and_eq_true] at h
    exact ⟨c, rest, rfl, h.1⟩

theorem t1At_head_nonword {l : List Char} (h : t1At false l = true) :
    wordAt l.head? = false := by
  cases l with
  | nil => simp [t1At, wsKwTail] at h
  | cons c rest =>
    rw [show t1At false (c :: rest)
        = ((isPunctCh c && wsKwTail false rest) || wsKwTail false (c :: rest)) from rfl,
      Bool.or_eq_true] at h
    rcases h with h | h
    · rw [Bool.and_eq_true] at h
      simp only [List.head?_cons]
      exact isWordCh_of_punct h.1
    · obtain ⟨c2, rest2, hl, hc⟩ := wsKwTail_head_space h
      injection hl with he1 he2
      subst he1
      simp only [List.head?_cons]
      exact isWordCh_of_space hc

theorem t2At_head_nonword {l : List Char} (h : t2At false l = true) :
    wordAt l.head? = false := by
  cases l with
  | nil => simp [t2At] at h
  | cons c rest =>
    rw [show t2At false (c :: rest) = (c == ',' && wsKwTail false rest) from rfl,
      Bool.and_eq_true] at h
    have hc : c = ',' := by simpa using h.1
    subst hc
    simp only [List.head?_cons]
    decide

theorem trimAt_result {at1 : Bool → List Char → Bool} {cs : List Char} :
    trimAt at1 cs = cs ∨ ∃ p, at1 false (cs.drop p) = true ∧
      (trimAt at1 cs = cs.take p ∨ trimAt at1 cs = cs.take p ++ ['\n']) := by
  rw [trimAt]
  cases hf : findAt (at1 false) cs with
  | none => exact Or.inl rfl
  | some p =>
    obtain ⟨h1, -⟩ := findAt_some hf
    by_cases hs : at1 true (cs.drop p) = true
    · refine Or.inr ⟨p, h1, Or.inl ?_⟩
      show (if at1 true (cs.drop p) = true then cs.take p else cs.take p ++ ['\n'])
        = cs.take p
      rw [if_pos hs]
    · refine Or.inr ⟨p, h1, Or.inr ?_⟩
      show (if at1 true (cs.drop p) = true then cs.take p else cs.take p ++ ['\n'])
        = cs.take p ++ ['\n']
      rw [if_neg hs]

theorem noEm_trimAt {at1 : Bool → List Char → Bool}
    (hhead : ∀ l, at1 false l = true → wordAt l.head? = false)
    {cs : List Char} (h : NoEm isTldCh false cs) :
    NoEm isTldCh false (trimAt at1 cs) := by
  rcases trimAt_result with heq | ⟨p, hat, heq | heq⟩
  · rw [heq]
    exact h
  · rw [heq]
    refine noEm_append_left (hhead _ hat) ?_
    rw [List.take_append_drop]
    exact h
  · rw [heq]
    refine noEm_snoc (by decide) (by decide) (by decide) ?_
    refine noEm_append_left (hhead _ hat) ?_
    rw [List.take_append_drop]
    exact h

theorem noEm_pyRstrip {cs : List Char} (h : NoEm isTldCh false cs) :
    NoEm isTldCh false (pyRstripL cs) := by
  obtain ⟨t, ht, hts⟩ := pyRstripL_decomp cs
  refine noEm_append_left (wordAt_head_of_spaces hts) ?_
  rw [← ht]
  exact h

theorem noEm_pyStrip {cs : List Char} (h : NoEm isTldCh false cs) :
    NoEm isTldCh false (pyStripL cs) := by
  rw [pyStripL]
  refine noEm_pyRstrip ?_
  obtain ⟨t, ht, hts⟩ := pyLstripL_decomp cs
  refine noEm_space_left hts ?_
  rw [← ht]
  exact h

theorem noEm_appendDot {cs : List Char} (h : NoEm isTldCh false cs) :
    NoEm isTldCh false (appendDot cs) := by
  rw [appendDot]
  by_cases h1 : cs.isEmpty
  · rw [if_pos h1]
    exact h
  · rw [if_neg h1]
    by_cases h2 : endPunct cs
    · rw [if_pos h2]
      exact h
    · rw [if_neg h2]
      exact noEm_snoc (by decide) (by decide) (by decide) h

/-! ### The line stage keeps a newline-cut prefix of its input -/

theorem joinNL_append : ∀ (T D : List (List Char)), T ≠ [] → D ≠ [] →
    joinNL (T ++ D) = joinNL T ++ '\n' :: joinNL D := by
  intro T
  induction T with
  | nil => intro D h hD; exact absurd rfl h
  | cons t T2 ih =>
    intro D _ hD
    cases T2 with
    | nil =>
      cases D with
      | nil => exact absurd rfl hD
      | cons d D2 => rfl
    | cons t2 T3 =>
      have h1 : joinNL ((t :: t2 :: T3) ++ D) = t ++ '\n' :: joinNL ((t2 :: T3) ++ D) := rfl
      have h2 : joinNL (t :: t2 :: T3) = t ++ '\n' :: joinNL (t2 :: T3) := rfl
      rw [h1, ih D (by simp) hD, h2]
      simp [List.append_assoc]

theorem noEm_lineStage {u : List Char} (h : NoEm isTldCh false u) :
    NoEm isTldCh false (lineStageL u) := by
  rw [lineStageL, keepLoop_eq_takeWhile]
  refine noEm_pyStrip ?_
  set T := (splitNL u).takeWhile (fun l => !isSigLine l) with hT
  set D := (splitNL u).dropWhile (fun l => !isSigLine l) with hD
  have hTD : T ++ D = splitNL u := List.takeWhile_append_dropWhile _ _
  by_cases hTn : T = []
  · rw [hTn]
    exact trivial
  · by_cases hDn : D = []
    · have hTall : T = splitNL u := by
        rw [← hTD, hDn, List.append_nil]
      rw [hTall, joinNL_splitNL]
      exact h
    · have hj : u = joinNL T ++ '\n' :: joinNL D := by
        conv_lhs => rw [← joinNL_splitNL u, ← hTD]
        exact joinNL_append T D hTn hDn
      have h2 : NoEm isTldCh false (joinNL T ++ '\n' :: joinNL D) := by
        rw [← hj]
        exact h
      have hz : wordAt ('\n' :: joinNL D).head? = false := by
        simp only [List.head?_cons]
        decide
      exact noEm_append_left hz h2

theorem noEm_congr {tp : Char → Bool} {b : Bool} {x y : List Char} (hxy : x = y)
    (h : NoEm tp b y) : NoEm tp b x := by
  rw [hxy]
  exact h

theorem string_mk_congr {x y : List Char} (h : x = y) : String.mk x = String.mk y := by
  rw [h]

theorem string_eta (t : String) : String.mk t.data = t := rfl

/-- Claim C9: sanitized content is a fixpoint of email redaction — running
`redact_emails` on the output of `sanitize_content` changes nothing, for
every input string. -/
theorem sanitize_content_redact_fixpoint (s : String) :
    redact_emails (sanitize_content s) = sanitize_content s := by
  have h0 : NoEm isTldCh false (redactL isTldCh s.data) := by
    rw [redactL]
    exact emailScan_render_noEm s.data.length false false s.data (Nat.le_refl _) (Or.inl rfl)
  obtain ⟨u, hu⟩ : ∃ u, redactL isTldCh s.data = u := ⟨_, rfl⟩
  rw [hu] at h0
  obtain ⟨v1, hv1⟩ : ∃ v, lineStageL u = v := ⟨_, rfl⟩
  have h1 : NoEm isTldCh false v1 := by
    rw [← hv1]
    exact noEm_lineStage h0
  obtain ⟨v2, hv2⟩ : ∃ v, trimAt t1At v1 = v := ⟨_, rfl⟩
  have h2 : NoEm isTldCh false v2 := by
    rw [← hv2]
    exact noEm_trimAt (fun l => t1At_head_nonword) h1
  obtain ⟨v3, hv3⟩ : ∃ v, trimAt t2At v2 = v := ⟨_, rfl⟩
  have h3 : NoEm isTldCh false v3 := by
    rw [← hv3]
    exact noEm_trimAt (fun l => t2At_head_nonword) h2
  obtain ⟨v4, hv4⟩ : ∃ v, pyRstripL v3 = v := ⟨_, rfl⟩
  have h4 : NoEm isTldCh false v4 := by
    rw [← hv4]
    exact noEm_pyRstrip h3
  obtain ⟨v5, hv5⟩ : ∃ v, appendDot v4 = v := ⟨_, rfl⟩
  have h5 : NoEm isTldCh false v5 := by
    rw [← hv5]
    exact noEm_appendDot h4
  obtain ⟨v6, hv6⟩ : ∃ v, pyStripL v5 = v := ⟨_, rfl⟩
  have h6 : NoEm isTldCh false v6 := by
    rw [← hv6]
    exact noEm_pyStrip h5
  obtain ⟨v7, hv7⟩ : ∃ v, pyStripL v6 = v := ⟨_, rfl⟩
  have h7 : NoEm isTldCh false v7 := by
    rw [← hv7]
    exact noEm_pyStrip h6
  have hdata : (sanitize_content s).data = v7 := by
    rw [← hv7, ← hv6, ← hv5, ← hv4, ← hv3, ← hv2, ← hv1, ← hu]
    simp only [sanitize_content, removeSigL, preFinalL, trim1L, trim2L]
  have hmk : String.mk (sanitize_content s).data = String.mk v7 := string_mk_congr hdata
  have hs7 : sanitize_content s = String.mk v7 :=
    (string_eta (sanitize_content s)).symm.trans hmk
  rw [hs7]
  have hred : redact_emails (String.mk v7) = String.mk (redactL isTldCh v7) := rfl
  rw [hred]
  have hfix : redactL isTldCh v7 = v7 := redactL_eq_self_of_noEm h7
  rw [hfix]

end QnA


